import Mathlib

/-!
Verification of the chinese_prompt_optimizer package.

Shallow embedding conventions:
* Python strings are `List Char` (`Str`); concrete strings are written
  with `String.data`.
* Python floats are modelled as rationals: every operation the code
  performs on them here (comparison, min/max, division by an integer,
  decimal rounding) is exact-valued, so `Rat` is a faithful carrier.
* External services (Google translate engines, the LiteLLM completion
  primitive, tiktoken) are oracle parameters; the functions under test
  additionally return the ordered list of arguments they sent to the
  oracle, so that call-count/ordering properties are statable.
* Python dicts are association lists in insertion order with unique keys,
  built by `dictInsert`/`dictMerge` which mirror dict update semantics.
* Functions whose Python loop advances by more than one character are
  written with an explicit fuel argument (initialised to the string
  length) so that they stay structurally recursive and kernel-evaluable;
  fuel-independence lemmas below recover the natural unfolding equations.
-/

abbrev Str := List Char

/-- Whitespace recognised by both the regex class \s and str.strip for the
ASCII range (the unicode extras are irrelevant to every text handled here). -/
def pyIsSpace (c : Char) : Bool :=
  c = ' ' ∨ c = '\t' ∨ c = '\n' ∨ c = '\r' ∨ c = '\x0b' ∨ c = '\x0c'

/-- Python str.strip(): drop whitespace from both ends. -/
def pyStrip (s : Str) : Str :=
  ((s.dropWhile pyIsSpace).reverse.dropWhile pyIsSpace).reverse

/-- Python str.lower(), ASCII case folding. -/
def pyLower (s : Str) : Str := s.map Char.toLower

/-- Substring test: does pat occur (contiguously) inside s?  This is
re.search with a re.escape'd pattern, as used by Translator._protect_terms. -/
def containsSub : Str → Str → Bool
  | s, pat => pat.isPrefixOf s ||
      match s with
      | [] => false
      | _ :: cs => containsSub cs pat

/-- Fuelled worker for `replaceAll`; fuel bounds the number of steps and is
initialised to the string length (each step consumes at least one char). -/
def replaceAllFuel : ℕ → Str → Str → Str → Str
  | _, [], _, _ => []
  | 0, s, _, _ => s
  | fuel + 1, c :: cs, pat, repl =>
    if pat ≠ [] ∧ pat.isPrefixOf (c :: cs) then
      repl ++ replaceAllFuel fuel (List.drop (pat.length - 1) cs) pat repl
    else
      c :: replaceAllFuel fuel cs pat repl

/-- Leftmost, non-overlapping global replacement: the behaviour of
re.compile(re.escape(pat)).sub(repl, s) (equally str.replace) for a
non-empty pattern; every call site guarantees pat is non-empty. -/
def replaceAll (s pat repl : Str) : Str := replaceAllFuel s.length s pat repl

theorem replaceAllFuel_congr :
    ∀ f₁ f₂ s pat repl, s.length ≤ f₁ → s.length ≤ f₂ →
      replaceAllFuel f₁ s pat repl = replaceAllFuel f₂ s pat repl := by
  intro f₁
  induction f₁ with
  | zero =>
    intro f₂ s pat repl h₁ _
    have : s = [] := List.length_eq_zero.mp (Nat.le_zero.mp h₁)
    subst this
    cases f₂ <;> rfl
  | succ g ih =>
    intro f₂ s pat repl h₁ h₂
    cases s with
    | nil => cases f₂ <;> rfl
    | cons c cs =>
      cases f₂ with
      | zero => simp at h₂
      | succ h =>
        simp only [replaceAllFuel]
        by_cases hm : pat ≠ [] ∧ pat.isPrefixOf (c :: cs)
        · simp only [if_pos hm]
          have hcg : cs.length ≤ g := by simpa using h₁
          have hch : cs.length ≤ h := by simpa using h₂
          have hlen : (List.drop (pat.length - 1) cs).length ≤ g := by
            have := List.length_drop (pat.length - 1) cs
            omega
          have hlen2 : (List.drop (pat.length - 1) cs).length ≤ h := by
            have := List.length_drop (pat.length - 1) cs
            omega
          rw [ih _ _ _ _ hlen hlen2]
        · simp only [if_neg hm]
          have hcg : cs.length ≤ g := by simpa using h₁
          have hch : cs.length ≤ h := by simpa using h₂
          rw [ih _ _ _ _ hcg hch]

theorem replaceAll_nil (pat repl : Str) : replaceAll [] pat repl = [] := rfl

theorem replaceAll_cons (c : Char) (cs pat repl : Str) :
    replaceAll (c :: cs) pat repl =
      if pat ≠ [] ∧ pat.isPrefixOf (c :: cs) then
        repl ++ replaceAll (List.drop (pat.length - 1) cs) pat repl
      else
        c :: replaceAll cs pat repl := by
  show replaceAllFuel (cs.length + 1) (c :: cs) pat repl = _
  simp only [replaceAllFuel, replaceAll]
  by_cases hm : pat ≠ [] ∧ pat.isPrefixOf (c :: cs)
  · simp only [if_pos hm]
    have hlen : (List.drop (pat.length - 1) cs).length ≤ cs.length := by
      have := List.length_drop (pat.length - 1) cs
      omega
    rw [replaceAllFuel_congr _ _ _ _ _ hlen le_rfl]
  · simp only [if_neg hm]

/-- Decimal digit character for d < 10. -/
def digitChar (d : ℕ) : Char := Char.ofNat (48 + d)

/-- Fuelled worker for `natDigits`. -/
def natDigitsFuel : ℕ → ℕ → Str
  | 0, n => [digitChar n]
  | fuel + 1, n =>
    if n < 10 then [digitChar n]
    else natDigitsFuel fuel (n / 10) ++ [digitChar (n % 10)]

/-- Decimal representation of a natural number, as produced by str(n). -/
def natDigits (n : ℕ) : Str := natDigitsFuel n n

theorem natDigitsFuel_congr :
    ∀ f₁ f₂ n, n ≤ f₁ → n ≤ f₂ → natDigitsFuel f₁ n = natDigitsFuel f₂ n := by
  intro f₁
  induction f₁ with
  | zero =>
    intro f₂ n h₁ _
    have : n = 0 := Nat.le_zero.mp h₁
    subst this
    cases f₂ <;> simp [natDigitsFuel]
  | succ g ih =>
    intro f₂ n h₁ h₂
    cases f₂ with
    | zero =>
      have : n = 0 := Nat.le_zero.mp h₂
      subst this
      simp [natDigitsFuel]
    | succ h =>
      simp only [natDigitsFuel]
      by_cases hn : n < 10
      · simp [hn]
      · simp only [if_neg hn]
        have hd : n / 10 ≤ g := by
          have : n / 10 < n := Nat.div_lt_self (by omega) (by omega)
          omega
        have hd2 : n / 10 ≤ h := by
          have : n / 10 < n := Nat.div_lt_self (by omega) (by omega)
          omega
        rw [ih _ _ hd hd2]

theorem natDigits_eq (n : ℕ) :
    natDigits n =
      if n < 10 then [digitChar n]
      else natDigits (n / 10) ++ [digitChar (n % 10)] := by
  cases n with
  | zero => simp [natDigits, natDigitsFuel]
  | succ m =>
    show natDigitsFuel (m + 1) (m + 1) = _
    simp only [natDigitsFuel, natDigits]
    by_cases hn : m + 1 < 10
    · simp [hn]
    · simp only [if_neg hn]
      have hd : (m + 1) / 10 ≤ m := by
        have : (m + 1) / 10 < m + 1 := Nat.div_lt_self (by omega) (by omega)
        omega
      rw [natDigitsFuel_congr _ _ _ hd le_rfl]

/-- Round-half-to-even of a rational, the rounding rule of Python round(). -/
def roundHalfEven (q : ℚ) : ℤ :=
  let f := ⌊q⌋
  let r := q - f
  if r < 1 / 2 then f
  else if 1 / 2 < r then f + 1
  else if f % 2 = 0 then f else f + 1

/-- Python round(q, n) for our exact-rational model of floats. -/
def pyRoundTo (q : ℚ) (n : ℕ) : ℚ :=
  (roundHalfEven (q * 10 ^ n) : ℚ) / 10 ^ n

/-- Key membership in an insertion-ordered dict. -/
def hasKey (d : List (Str × Str)) (k : Str) : Bool := d.any (fun p => p.1 = k)

/-- Python dict assignment d[k] = v: update in place if the key exists,
append otherwise. -/
def dictInsert (d : List (Str × Str)) (k v : Str) : List (Str × Str) :=
  if hasKey d k then d.map (fun p => if p.1 = k then (p.1, v) else p)
  else d ++ [(k, v)]

/-- Python dict merge as in the source, with b overriding a. -/
def dictMerge (a b : List (Str × Str)) : List (Str × Str) :=
  (a ++ b).foldl (fun d p => dictInsert d p.1 p.2) []

/-! ## translator.py -/

/-- The placeholder template _PLACEHOLDER = "__PH_{idx}__". -/
def placeholder (idx : ℕ) : Str :=
  "__PH_".data ++ natDigits idx ++ "__".data

/-- Strip the exact literal p from the front of s, if present. -/
def dropExact : Str → Str → Option Str
  | [], s => some s
  | _ :: _, [] => none
  | p :: ps, c :: cs => if c = p then dropExact ps cs else none

theorem dropExact_length :
    ∀ {p s r : Str}, dropExact p s = some r → r.length + p.length = s.length := by
  intro p
  induction p with
  | nil => intro s r h; simp [dropExact] at h; simp [h]
  | cons p ps ih =>
    intro s r h
    cases s with
    | nil => simp [dropExact] at h
    | cons c cs =>
      simp only [dropExact] at h
      by_cases hc : c = p
      · simp only [if_pos hc] at h
        have := ih h
        simp only [List.length_cons]
        omega
      · simp [if_neg hc] at h

/-- Match the regex _PH_PATTERN = __PH_\d+__ at the head of s; on success
return the remainder after the match.  The digit part is a maximal run
(backtracking cannot help the regex here: a shorter run would put a digit
where the closing underscore is required). -/
def matchPH (s : Str) : Option Str :=
  match dropExact "__PH_".data s with
  | none => none
  | some rest =>
    if rest.takeWhile Char.isDigit = [] then none
    else dropExact "__".data (rest.dropWhile Char.isDigit)

theorem matchPH_shrink {s r : Str} (h : matchPH s = some r) : r.length < s.length := by
  unfold matchPH at h
  match h1 : dropExact "__PH_".data s with
  | none => rw [h1] at h; simp at h
  | some rest =>
    rw [h1] at h
    by_cases hd : rest.takeWhile Char.isDigit = []
    · simp [hd] at h
    · simp only [if_neg hd] at h
      have e1 := dropExact_length h1
      have e2 := dropExact_length h
      have e3 : (rest.takeWhile Char.isDigit).length + (rest.dropWhile Char.isDigit).length
          = rest.length := by
        rw [← List.length_append, List.takeWhile_append_dropWhile]
      have e4 : (rest.takeWhile Char.isDigit).length ≠ 0 := by
        simpa [List.length_eq_zero] using hd
      rw [show ("__PH_".data).length = 5 from rfl] at e1
      rw [show ("__".data).length = 2 from rfl] at e2
      omega

/-- Fuelled worker for `stripPH`. -/
def stripPHFuel : ℕ → Str → Str
  | _, [] => []
  | 0, s => s
  | fuel + 1, c :: cs =>
    match matchPH (c :: cs) with
    | some rest => stripPHFuel fuel rest
    | none => c :: stripPHFuel fuel cs

/-- _PH_PATTERN.sub("", text): delete every (leftmost, non-overlapping)
occurrence of __PH_\d+__. -/
def stripPH (s : Str) : Str := stripPHFuel s.length s

example : pyStrip "  ab c  ".data = "ab c".data := by decide
example : containsSub "hello".data "ell".data = true := by decide
example : containsSub "hello".data "elo".data = false := by decide
example : replaceAll "abab".data "ab".data "x".data = "xx".data := by decide
example : replaceAll "aaa".data "aa".data "b".data = "ba".data := by decide
example : natDigits 305 = "305".data := by decide
example : pyRoundTo (200 / 3 : ℚ) 2 = 6667 / 100 := by
  norm_num [pyRoundTo, roundHalfEven]
example : pyRoundTo (125 / 1000 : ℚ) 2 = 12 / 100 := by
  norm_num [pyRoundTo, roundHalfEven]
example : dictMerge [("a".data, "1".data)] [("a".data, "2".data), ("b".data, "3".data)]
    = [("a".data, "2".data), ("b".data, "3".data)] := by decide

/-! ## translator.py: the Translator class -/

namespace Translator

/-- Loop body of Translator._protect_terms: enumerate(glossary.items()),
skipping empty terms (idx still advances), substituting every occurrence
of a found term by its placeholder in the current text, and recording
placeholder -> replacement. -/
def protect_go : Str → List (Str × Str) → ℕ → Str × List (Str × Str)
  | text, [], _ => (text, [])
  | text, (term, repl) :: rest, idx =>
    if term = [] then protect_go text rest (idx + 1)
    else if containsSub text term then
      let ph := placeholder idx
      let next := protect_go (replaceAll text term ph) rest (idx + 1)
      (next.1, (ph, repl) :: next.2)
    else protect_go text rest (idx + 1)

/-- Translator._protect_terms(text, glossary). -/
def protect_terms (text : Str) (glossary : List (Str × Str)) :
    Str × List (Str × Str) :=
  if glossary = [] then (text, []) else protect_go text glossary 0

/-- Translator._restore_terms(text, placeholders, glossary): substitute each
recorded placeholder by its replacement (dict iteration order = recording
order), then delete any leftover marker-shaped substring, then strip.
The glossary parameter is accepted and unused, exactly as in the source. -/
def restore_terms (text : Str) (placeholders : List (Str × Str))
    (glossary : List (Str × Str)) : Str :=
  pyStrip (stripPH (placeholders.foldl (fun t p => replaceAll t p.1 p.2) text))

/-- Terminal sentence punctuation of _SENTENCE_SPLIT = (?<=[.!?])\s+. -/
def isTerminal (c : Char) : Bool := c = '.' ∨ c = '!' ∨ c = '?'

def prevTerminal : Option Char → Bool
  | some p => isTerminal p
  | none => false

/-- re.split scanner for (?<=[.!?])\s+: walks the text, and on a whitespace
char whose predecessor is terminal punctuation, closes the current piece
and enters skip mode which consumes the rest of the whitespace run (the
greedy \s+); skip mode passes prev = none because the char right after the
skipped run is never whitespace, so the lookbehind cannot fire there. -/
def ssGo : Bool → Option Char → Str → List Str
  | _, _, [] => [[]]
  | skipping, prev, c :: cs =>
    if skipping ∧ pyIsSpace c then ssGo true none cs
    else if pyIsSpace c ∧ prevTerminal prev then
      [] :: ssGo true none cs
    else
      match ssGo false (some c) cs with
      | [] => [[c]]
      | p :: ps => (c :: p) :: ps

/-- _split_sentences: split the stripped text on sentence boundaries and
drop empty pieces. -/
def split_sentences (text : Str) : List Str :=
  (ssGo false none (pyStrip text)).filter (fun s => s ≠ [])

/-- Translator._translate_sentences with the external NMT engine as an
oracle; also returns the list of texts sent to engine.translate, in call
order. -/
def translate_sentences (engine : Str → Str) (text : Str) : Str × List Str :=
  let sentences := split_sentences text
  if sentences = [] then (engine text, [text])
  else (List.intercalate [' '] (sentences.map engine), sentences)

/-- Translator.english_to_chinese; the first component of the result is the
list of texts sent to the en->zh engine (empty when validation fails
before any external call). -/
def english_to_chinese (engine : Str → Str) (glossary : List (Str × Str))
    (text : Str) (extra_glossary : List (Str × Str)) :
    List Str × Except Str Str :=
  if pyStrip text = [] then ([], .error "Input text must not be empty.".data)
  else
    let merged := dictMerge glossary extra_glossary
    let prot := protect_terms text merged
    let tr := translate_sentences engine prot.1
    (tr.2, .ok (restore_terms tr.1 prot.2 merged))

/-- The zh->en placeholder map {v: k for k, v in merged.items() if v and v != k},
built with dict-comprehension semantics. -/
def invert_glossary (merged : List (Str × Str)) : List (Str × Str) :=
  (merged.filter (fun p => p.2 ≠ [] ∧ p.2 ≠ p.1)).foldl
    (fun d p => dictInsert d p.2 p.1) []

/-- Translator.chinese_to_english, same conventions as english_to_chinese. -/
def chinese_to_english (engine : Str → Str) (glossary : List (Str × Str))
    (text : Str) (extra_glossary : List (Str × Str)) :
    List Str × Except Str Str :=
  if pyStrip text = [] then ([], .error "Input text must not be empty.".data)
  else
    let merged := dictMerge glossary extra_glossary
    let zh_map := invert_glossary merged
    let prot := protect_terms text zh_map
    let tr := translate_sentences engine prot.1
    (tr.2, .ok (restore_terms tr.1 prot.2 zh_map))

end Translator

-- Sanity checks on the translator layer.
example : Translator.protect_terms "Check HIPAA now.".data [("HIPAA".data, "HIPAA".data)]
    = ("Check __PH_0__ now.".data, [("__PH_0__".data, "HIPAA".data)]) := by decide
example : Translator.split_sentences "First one. Second two! Third?".data
    = ["First one.".data, "Second two!".data, "Third?".data] := by decide
example : Translator.split_sentences "No boundary here".data
    = ["No boundary here".data] := by decide
example : Translator.restore_terms "Check __PH_0__ now.".data
    [("__PH_0__".data, "HIPAA".data)] [] = "Check HIPAA now.".data := by decide
example : stripPH "a __PH_3__b".data = "a b".data := by decide
example :
    (Translator.english_to_chinese (fun s => s) [] "  ".data []).1 = [] := by decide

/-! ## anti_hallucination.py: the HallucinationGuard class -/

/-- LiteLLM chat message {role, content}. -/
structure Message where
  role : Str
  content : Str
deriving DecidableEq, Repr

/-- A few-shot example dict, which may carry a "user" and/or an
"assistant" key. -/
structure FewShot where
  user : Option Str
  assistant : Option Str
deriving DecidableEq, Repr

/-- Decimal rendering of an integer, as produced by str(i). -/
def intDigits (i : ℤ) : Str :=
  if i < 0 then '-' :: natDigits i.natAbs else natDigits i.toNat

/-- Python format spec {:.0%}: value scaled by 100, rounded to zero
decimals (half-to-even), suffixed with a percent sign. -/
def formatPercent0 (q : ℚ) : Str :=
  intDigits (roundHalfEven (q * 100)) ++ ['%']

namespace HallucinationGuard

def MAX_TEMPERATURE : ℚ := 0.4

def DEFAULT_TEMPERATURE : ℚ := 0.2

def IDK_INSTRUCTION : Str :=
  "如果你不确定某个答案，请明确回答\"我不知道\"或\"数据不足，无法确认\"，而不是猜测或编造内容。".data

def COT_INSTRUCTION : Str :=
  "请在回答前按以下步骤分析：\n1. 理解问题或文本的核心含义\n2. 识别关键术语和上下文\n3. 基于已知事实进行推理\n4. 确保最终答案与原始问题直接相关".data

def SELF_REFLECT_INSTRUCTION : Str :=
  "完成回答后，请执行自我检查：\n- 答案是否直接基于输入内容？\n- 是否包含任何未经输入支持的信息？\n- 如有不确定之处，是否已明确标注？".data

/-- HallucinationGuard.enforce_temperature: clamp into [0.1, 0.4]. -/
def enforce_temperature (temperature : ℚ) : ℚ :=
  max 0.1 (min temperature MAX_TEMPERATURE)

/-- HallucinationGuard.build_guarded_prompt: strip the base prompt and
append one fixed instruction block per enabled flag, newline-joined. -/
def build_guarded_prompt (chinese_prompt : Str) (use_idk_rule : Bool := true)
    (use_cot : Bool := false) (use_self_reflect : Bool := false) : Str :=
  let parts := [pyStrip chinese_prompt]
    ++ (if use_idk_rule then [IDK_INSTRUCTION] else [])
    ++ (if use_cot then [COT_INSTRUCTION] else [])
    ++ (if use_self_reflect then [SELF_REFLECT_INSTRUCTION] else [])
  List.intercalate ['\n'] parts

/-- HallucinationGuard.build_rag_context_block. -/
def build_rag_context_block (snippets : List Str) : Str :=
  if snippets = [] then []
  else
    let lines := "[Verified Context]".data ::
      (snippets.enum.map
        (fun p => natDigits (p.1 + 1) ++ ". ".data ++ pyStrip p.2))
      ++ ["[End Context]".data]
    List.intercalate ['\n'] lines

/-- HallucinationGuard.build_few_shot_messages. -/
def build_few_shot_messages (examples : List FewShot) : List Message :=
  examples.flatMap (fun ex =>
    (match ex.user with
     | some u => [⟨"user".data, u⟩]
     | none => [])
    ++ (match ex.assistant with
        | some a => [⟨"assistant".data, a⟩]
        | none => []))

/-- ASCII approximation of the regex class \w used in the key-term
pattern \b\w{4,}\b (the unicode extension changes which concrete strings
hit which branch, never the properties proved below, which hold for all
model texts). -/
def isWordChar (c : Char) : Bool := c.isAlphanum || c = '_'

/-- Maximal runs of word characters, in order: exactly the matches of
\b\w{4,}\b once filtered for length 4. -/
def wordRuns : Str → List Str
  | [] => []
  | c :: cs =>
    if isWordChar c then
      match cs with
      | [] => [[c]]
      | c2 :: _ =>
        if isWordChar c2 then
          match wordRuns cs with
          | [] => [[c]]
          | r :: rs => (c :: r) :: rs
        else [c] :: wordRuns cs
    else wordRuns cs

/-- set(w.lower() for w in re.findall(r"\b\w{4,}\b", source_text)),
as a duplicate-free list. -/
def sourceKeyTerms (source_text : Str) : List Str :=
  (((wordRuns source_text).filter (fun w => 4 ≤ w.length)).map pyLower).dedup

/-- Grounding check result dict {grounded, overlap_ratio, warning}. -/
structure GroundingResult where
  grounded : Bool
  overlap_ratio : ℚ
  warning : Str
deriving DecidableEq, Repr

/-- The not-grounded warning f-string of check_source_grounding. -/
def groundingWarning (overlap min_overlap_ratio : ℚ) : Str :=
  "Potential hallucination detected: response overlaps only ".data
    ++ formatPercent0 overlap
    ++ " of source key terms (threshold: ".data
    ++ formatPercent0 min_overlap_ratio
    ++ ").".data

/-- HallucinationGuard.check_source_grounding. -/
def check_source_grounding (source_text response_text : Str)
    (min_overlap_ratio : ℚ := 0) : GroundingResult :=
  if source_text = [] ∨ response_text = [] then ⟨true, 0, []⟩
  else
    let source_words := sourceKeyTerms source_text
    if source_words = [] then ⟨true, 1, []⟩
    else
      let response_lower := pyLower response_text
      let found :=
        (source_words.filter (fun w => containsSub response_lower w)).length
      let overlap : ℚ := (found : ℚ) / (source_words.length : ℚ)
      let grounded := decide (min_overlap_ratio ≤ overlap)
      ⟨grounded, pyRoundTo overlap 3,
       if grounded then [] else groundingWarning overlap min_overlap_ratio⟩

end HallucinationGuard

/-! ## utils.py: token_savings_report -/

/-- The savings report dict. -/
structure SavingsReport where
  english_tokens : ℕ
  chinese_tokens : ℕ
  tokens_saved : ℤ
  saving_pct : ℚ
deriving DecidableEq, Repr

/-- utils.token_savings_report; count_tokens is an oracle parameter
(its value depends on tiktoken availability and the model). -/
def token_savings_report (counter : Str → ℕ)
    (english_text chinese_text : Str) : SavingsReport :=
  let en_tokens := counter english_text
  let zh_tokens := counter chinese_text
  let saved : ℤ := (en_tokens : ℤ) - (zh_tokens : ℤ)
  let pct : ℚ := if 0 < en_tokens then ((saved : ℚ) / (en_tokens : ℚ)) * 100 else 0
  ⟨en_tokens, zh_tokens, saved, pyRoundTo pct 2⟩

-- Sanity checks on the guard layer.
example : HallucinationGuard.build_rag_context_block ["a".data, "b".data]
    = "[Verified Context]\n1. a\n2. b\n[End Context]".data := by decide
example : (HallucinationGuard.check_source_grounding [] "resp".data).grounded
    = true := by decide
example : HallucinationGuard.sourceKeyTerms "Tell me about WW2 plans".data
    = ["tell".data, "about".data, "plans".data] := by decide

/-! ## sot.py: the SkeletonOfThought class -/

namespace SkeletonOfThought

def SKELETON_SYSTEM_ZH : Str :=
  "你是一个精确的大纲生成助手，专注于为问题生成简洁的结构化要点列表。".data

/-- _SKELETON_TEMPLATE_ZH up to the {question} slot (which ends the
template), so the formatted prompt is this prefix ++ question. -/
def SKELETON_TEMPLATE_PRE : Str :=
  "请为以下问题生成一个简洁的回答大纲。\n要求：3-10个要点，每个要点3-5个词，仅输出编号列表（例：1. 要点内容），不要展开详情。\n问题：".data

/-- _EXPAND_TEMPLATE_ZH up to the {point} slot. -/
def EXPAND_TEMPLATE_PRE : Str :=
  "请充分展开以下要点，提供完整、准确的解释（2-4句话）：\n".data

/-- Horizontal whitespace [ \t] of the point pattern. -/
def isHT (c : Char) : Bool := c = ' ' ∨ c = '\t'

/-- Lines of a text, splitting at newline characters.  The MULTILINE
anchors of _POINT_PATTERN treat exactly the \n positions as line breaks;
for the splitlines() fallback this agrees on every \n-separated text. -/
def linesOf : Str → List Str
  | [] => [[]]
  | c :: cs =>
    if c = '\n' then [] :: linesOf cs
    else
      match linesOf cs with
      | [] => [[c]]
      | l :: ls => (c :: l) :: ls

/-- The (\S.*)$ tail of the point pattern: the rest of the line, which
must start with a non-whitespace character. -/
def checkBody : Str → Option Str
  | [] => none
  | b :: bs => if pyIsSpace b then none else some (b :: bs)

/-- One line against _POINT_PATTERN =
^[ \t]*(?:\d+[.)][ \t]*|[-*•][ \t]*)(\S.*)$, returning the capture.
The pattern is anchored at line start, so it can fire at most once per
line, and its capture runs to the end of the line. -/
def parseLinePoint (line : Str) : Option Str :=
  let rest := line.dropWhile isHT
  match rest with
  | [] => none
  | c :: _ =>
    if c.isDigit then
      match rest.dropWhile Char.isDigit with
      | p :: ps =>
        if p = '.' ∨ p = ')' then checkBody (ps.dropWhile isHT) else none
      | [] => none
    else if c = '-' ∨ c = '*' ∨ c = '•' then
      checkBody ((rest.drop 1).dropWhile isHT)
    else none

/-- SkeletonOfThought.parse_skeleton. -/
def parse_skeleton (text : Str) : List Str :=
  let found := (linesOf text).filterMap parseLinePoint
  if found ≠ [] then (found.map pyStrip).filter (fun m => m ≠ [])
  else ((linesOf text).map pyStrip).filter (fun l => l ≠ [])

/-- Constructor state of a SkeletonOfThought instance. -/
structure Config where
  model : Str
  temperature : ℚ
  parallel : Bool
  max_workers : Option ℕ
  api_key : Option Str
  api_base : Option Str
  litellm_kwargs : List (Str × Str)

/-- The result dict of SkeletonOfThought.complete.  α is the type of raw
LiteLLM ModelResponse objects, opaque to the pipeline. -/
structure Result (α : Type) where
  response : Str
  skeleton : List Str
  expanded_points : List Str
  raw_skeleton : α
  raw_expansions : List α

/-- Message list of _generate_skeleton. -/
def skeleton_messages (system_prompt user_message : Str) : List Message :=
  [⟨"system".data, system_prompt ++ '\n' :: SKELETON_SYSTEM_ZH⟩,
   ⟨"user".data, SKELETON_TEMPLATE_PRE ++ user_message⟩]

/-- Message list of _expand_one. -/
def expand_messages (system_prompt point : Str) : List Message :=
  [⟨"system".data, system_prompt⟩,
   ⟨"user".data, EXPAND_TEMPLATE_PRE ++ point⟩]

/-- SkeletonOfThought._expand_one.  The completion primitive is the oracle
llm (representing _call_litellm with this instance's model, temperature
and extra kwargs bound), and content extracts choices[0].message.content,
which may be None; the source substitutes "" for None. -/
def expand_one {α : Type} (llm : List Message → α) (content : α → Option Str)
    (system_prompt point : Str) : Str × α :=
  let raw := llm (expand_messages system_prompt point)
  ((content raw).getD [], raw)

/-- SkeletonOfThought._expand_points.  In the source the parallel branch
submits one future per point in list order and collects f.result() in
submission order, so both branches are the in-order map over points. -/
def expand_points {α : Type} (cfg : Config) (llm : List Message → α)
    (content : α → Option Str) (system_prompt : Str) (points : List Str) :
    List Str × List α :=
  let results :=
    if cfg.parallel ∧ 1 < points.length then
      points.map (expand_one llm content system_prompt)
    else
      points.map (expand_one llm content system_prompt)
  (results.map Prod.fst, results.map Prod.snd)

/-- SkeletonOfThought.complete: Stage 1, parse with single-point fallback,
Stage 2, assembly. -/
def complete {α : Type} (cfg : Config) (llm : List Message → α)
    (content : α → Option Str) (system_prompt user_message : Str) :
    Result α :=
  let raw_skeleton := llm (skeleton_messages system_prompt user_message)
  let skeleton_text := (content raw_skeleton).getD []
  let points0 := parse_skeleton skeleton_text
  let points := if points0 = [] then [pyStrip skeleton_text] else points0
  let ex := expand_points cfg llm content system_prompt points
  ⟨List.intercalate "\n\n".data ex.1, points, ex.1, raw_skeleton, ex.2⟩

end SkeletonOfThought

-- Sanity checks on the SoT layer.
example : SkeletonOfThought.parse_skeleton "1. A point\n2. B line".data
    = ["A point".data, "B line".data] := by decide
example : SkeletonOfThought.parse_skeleton "- A\n- B".data
    = ["A".data, "B".data] := by decide
example : SkeletonOfThought.parse_skeleton "* A\n* B".data
    = ["A".data, "B".data] := by decide
example : SkeletonOfThought.parse_skeleton "1) A\n2) B".data
    = ["A".data, "B".data] := by decide
example : SkeletonOfThought.parse_skeleton "free text\n\nsecond".data
    = ["free text".data, "second".data] := by decide

/-! ## optimizer.py: the ChinesePromptOptimizer class -/

namespace ChinesePromptOptimizer

/-- Instance attributes of a constructed optimizer.  temperature is the
stored, already-clamped value; litellm_kwargs is the untouched extra
keyword dict (which is where an unrecognised constructor argument such as
use_sot ends up). -/
structure Config where
  model : Str
  translate_response : Bool
  glossary : List (Str × Str)
  temperature : ℚ
  use_cot : Bool
  use_self_reflect : Bool
  hallucination_guard : Bool
  few_shot_examples : List FewShot
  api_key : Option Str
  api_base : Option Str
  litellm_kwargs : List (Str × Str)

/-- ChinesePromptOptimizer.__init__: the only computation it performs on
its arguments is the temperature clamp. -/
def init (model : Str) (translate_response : Bool)
    (glossary : List (Str × Str)) (temperature : ℚ)
    (use_cot use_self_reflect hallucination_guard : Bool)
    (few_shot_examples : List FewShot) (api_key api_base : Option Str)
    (litellm_kwargs : List (Str × Str)) : Config :=
  { model := model
    translate_response := translate_response
    glossary := glossary
    temperature := HallucinationGuard.enforce_temperature temperature
    use_cot := use_cot
    use_self_reflect := use_self_reflect
    hallucination_guard := hallucination_guard
    few_shot_examples := few_shot_examples
    api_key := api_key
    api_base := api_base
    litellm_kwargs := litellm_kwargs }

/-- One external call issued by complete(), in issue order. -/
inductive ExtCall where
  | translate_en_zh (arg : Str)
  | translate_zh_en (arg : Str)
  | completion (model : Str) (messages : List Message) (temperature : ℚ)
      (api_key api_base : Option Str) (kwargs : List (Str × Str))

/-- The result dict of ChinesePromptOptimizer.complete.  Optional fields
model optional dict keys.  The skeleton field records whether the dict
carries a "skeleton" key: the method body never writes one, but the
package CLI reads result.get("skeleton"), so key presence is part of the
observable surface. -/
structure CompleteResult where
  response : Str
  raw_response : Option Str
  grounding : Option HallucinationGuard.GroundingResult
  savings : Option SavingsReport
  skeleton : Option (List Str)

/-- ChinesePromptOptimizer._build_messages. -/
def build_messages (cfg : Config) (guarded_prompt user_message : Str) :
    List Message :=
  ⟨"system".data, guarded_prompt⟩ ::
    (if cfg.few_shot_examples ≠ [] then
      HallucinationGuard.build_few_shot_messages cfg.few_shot_examples
    else []) ++ [⟨"user".data, user_message⟩]

/-- The keyword set _call_litellm sends: stored extra kwargs plus the
enforced temperature plus api_key/api_base when set, recorded as an
ExtCall. -/
def call_litellm (cfg : Config) (messages : List Message) : ExtCall :=
  .completion cfg.model messages cfg.temperature cfg.api_key cfg.api_base
    cfg.litellm_kwargs

/-- Result-dict assembly of complete() steps 6-8. -/
def mk_result (cfg : Config) (counter : Str → ℕ)
    (system_prompt user_message chinese_system_prompt response : Str)
    (raw : Option Str) (return_savings : Bool) : CompleteResult :=
  { response := response
    raw_response := raw
    grounding :=
      if cfg.hallucination_guard then
        some (HallucinationGuard.check_source_grounding user_message response)
      else none
    savings :=
      if return_savings then
        some (token_savings_report counter system_prompt chinese_system_prompt)
      else none
    skeleton := none }

/-- ChinesePromptOptimizer.complete.  Oracles: en_zh/zh_en are the two NMT
engines, llm is the completion primitive (returning the possibly-None
content of choices[0].message), counter is count_tokens for this model.
Returns the ordered trace of external calls together with the result or
the ValueError message. -/
def complete (cfg : Config) (en_zh zh_en : Str → Str)
    (llm : List Message → Option Str) (counter : Str → ℕ)
    (system_prompt user_message : Str) (return_savings : Bool)
    (extra_glossary : List (Str × Str)) (context_snippets : List Str) :
    List ExtCall × Except Str CompleteResult :=
  if pyStrip system_prompt = [] then
    ([], .error "system_prompt must not be empty.".data)
  else if pyStrip user_message = [] then
    ([], .error "user_message must not be empty.".data)
  else
    match Translator.english_to_chinese en_zh cfg.glossary system_prompt
          extra_glossary with
    | (calls₁, .error e) => (calls₁.map .translate_en_zh, .error e)
    | (calls₁, .ok chinese_system_prompt) =>
      let guarded_prompt := HallucinationGuard.build_guarded_prompt
        chinese_system_prompt true cfg.use_cot cfg.use_self_reflect
      let effective_user_message :=
        if context_snippets ≠ [] then
          let context_block :=
            HallucinationGuard.build_rag_context_block context_snippets
          if context_block ≠ [] then
            context_block ++ "\n\n".data ++ user_message
          else user_message
        else user_message
      let messages := build_messages cfg guarded_prompt effective_user_message
      let raw := llm messages
      let raw_content := raw.getD []
      let trace₀ := calls₁.map ExtCall.translate_en_zh
        ++ [call_litellm cfg messages]
      if cfg.translate_response then
        match Translator.chinese_to_english zh_en cfg.glossary raw_content
              extra_glossary with
        | (calls₂, .error e) =>
          (trace₀ ++ calls₂.map .translate_zh_en, .error e)
        | (calls₂, .ok english_response) =>
          (trace₀ ++ calls₂.map .translate_zh_en,
           .ok (mk_result cfg counter system_prompt user_message
             chinese_system_prompt english_response raw return_savings))
      else
        (trace₀,
         .ok (mk_result cfg counter system_prompt user_message
           chinese_system_prompt raw_content raw return_savings))

end ChinesePromptOptimizer

/-! ## Auxiliary definitions used by the statements and proofs -/

/-- Does the text contain a sentence boundary of _SENTENCE_SPLIT, i.e. a
whitespace character whose predecessor is one of . ! ? (prev carries the
character before the scan start). -/
def hasBoundaryAux : Option Char → Str → Bool
  | _, [] => false
  | prev, c :: cs =>
    (pyIsSpace c && Translator.prevTerminal prev) || hasBoundaryAux (some c) cs

/-- Well-behaved glossary term for the placeholder machinery: non-empty,
and incapable of matching anything inside a marker __PH_<digits>__ (no
underscore, not a piece of "PH", not all digits). -/
def TermOK (t : Str) : Prop :=
  t ≠ [] ∧ '_' ∉ t ∧ t ≠ ['P'] ∧ t ≠ ['H'] ∧ t ≠ ['P', 'H'] ∧
    ∃ c ∈ t, ¬ c.isDigit = true

instance : DecidablePred TermOK := fun t => by
  unfold TermOK
  infer_instance

/-- Shadow representation of a partially protected text: literal characters
interleaved with whole placeholder markers. -/
abbrev Chunk := Char ⊕ ℕ

abbrev Chunks := List Chunk

def renderChunk : Chunk → Str
  | .inl c => [c]
  | .inr k => placeholder k

/-- Flatten a chunk text back to the string it denotes. -/
def render (cs : Chunks) : Str := cs.flatMap renderChunk

/-- Well-formed chunk text: literal characters are never underscores (the
underscore supply of the string is exactly its markers). -/
def ChWF (cs : Chunks) : Prop := ∀ c : Char, Sum.inl c ∈ cs → c ≠ '_'

/-- Match pat against the leading chunks: succeeds only on literal chunks
that spell pat, returning the remaining chunks. -/
def litTake : Str → Chunks → Option Chunks
  | [], cs => some cs
  | _ :: _, [] => none
  | p :: ps, ch :: cs =>
    match ch with
    | .inl c => if c = p then litTake ps cs else none
    | .inr _ => none

/-- Fuelled worker for `replaceAllC`; on a successful litTake with a
non-empty pattern at least one chunk is consumed, so the chunk count
bounds the steps. -/
def replaceAllCFuel : ℕ → Str → ℕ → Chunks → Chunks
  | _, _, _, [] => []
  | 0, _, _, cs => cs
  | fuel + 1, pat, k, ch :: cs =>
    if pat = [] then ch :: replaceAllCFuel fuel pat k cs
    else
      match litTake pat (ch :: cs) with
      | some rem => .inr k :: replaceAllCFuel fuel pat k rem
      | none => ch :: replaceAllCFuel fuel pat k cs

/-- Chunk-level mirror of replaceAll with a marker as replacement. -/
def replaceAllC (pat : Str) (k : ℕ) (cs : Chunks) : Chunks :=
  replaceAllCFuel cs.length pat k cs

/-- Replace every k-marker by the literal characters of r. -/
def substMark (k : ℕ) (r : Str) (cs : Chunks) : Chunks :=
  cs.flatMap fun ch =>
    match ch with
    | .inr j => if j = k then r.map Sum.inl else [.inr j]
    | .inl c => [.inl c]

/-- Apply substMark for each recorded pair, first recorded first (the
iteration order of the placeholder dict). -/
def substFold (phs : List (ℕ × Str)) (cs : Chunks) : Chunks :=
  phs.foldl (fun acc p => substMark p.1 p.2 acc) cs

/-- Marker indices present in a chunk text. -/
def marksOf (cs : Chunks) : List ℕ :=
  cs.filterMap fun ch =>
    match ch with
    | .inr k => some k
    | .inl _ => none

/-- Chunk-level shadow of Translator.protect_go, recording (index,
replacement) pairs. -/
def protect_goC : Chunks → List (Str × Str) → ℕ → Chunks × List (ℕ × Str)
  | cs, [], _ => (cs, [])
  | cs, (term, repl) :: rest, idx =>
    if term = [] then protect_goC cs rest (idx + 1)
    else if containsSub (render cs) term then
      let next := protect_goC (replaceAllC term idx cs) rest (idx + 1)
      (next.1, (idx, repl) :: next.2)
    else protect_goC cs rest (idx + 1)

/-- Decimal value of a digit string (left fold), used to invert natDigits. -/
def digitsVal (s : Str) : ℕ := s.foldl (fun a c => a * 10 + (c.toNat - 48)) 0

/-- Is a trace entry the LiteLLM completion call? -/
def isCompletionCall : ChinesePromptOptimizer.ExtCall → Bool
  | .completion .. => true
  | _ => false

/-- The result dict (when produced) has no skeleton key. -/
def skeleton_absent : Except Str ChinesePromptOptimizer.CompleteResult → Prop
  | .ok r => r.skeleton = none
  | .error _ => True

/-- The result dict (when produced) carries a grounding entry that is
grounded with an empty warning. -/
def result_grounded_ok : Except Str ChinesePromptOptimizer.CompleteResult → Prop
  | .ok r => ∃ g, r.grounding = some g ∧ g.grounded = true ∧ g.warning = []
  | .error _ => True

/-! ## Claim theorems -/

/-- C6: for every temperature input t, enforce_temperature(t) is in
[0.1, 0.4]; and for every t already in [0.1, 0.4], enforce_temperature(t)
equals t. -/
theorem C6_temperature_clamp :
    (∀ t : ℚ, (0.1 : ℚ) ≤ HallucinationGuard.enforce_temperature t ∧
      HallucinationGuard.enforce_temperature t ≤ (0.4 : ℚ)) ∧
    (∀ t : ℚ, (0.1 : ℚ) ≤ t → t ≤ (0.4 : ℚ) →
      HallucinationGuard.enforce_temperature t = t) := by
  constructor
  · intro t
    unfold HallucinationGuard.enforce_temperature HallucinationGuard.MAX_TEMPERATURE
    refine ⟨le_max_left _ _, max_le (by norm_num) (min_le_right _ _)⟩
  · intro t h1 h2
    unfold HallucinationGuard.enforce_temperature HallucinationGuard.MAX_TEMPERATURE
    rw [min_eq_left h2, max_eq_right h1]

/-- Witness for C6 at t = 0.3. -/
theorem C6_temperature_clamp_witness :
    (0.1 : ℚ) ≤ 0.3 ∧ (0.3 : ℚ) ≤ 0.4 ∧
      HallucinationGuard.enforce_temperature 0.3 = 0.3 :=
  ⟨by norm_num, by norm_num,
   C6_temperature_clamp.2 0.3 (by norm_num) (by norm_num)⟩

/-- C3 counterexample: with a non-empty source and an empty response the
code reports overlap_ratio 0.0, not the claimed 1.0. -/
theorem C3_empty_response_counterexample :
    (HallucinationGuard.check_source_grounding ['h', 'i'] [] 0).grounded = true ∧
    (HallucinationGuard.check_source_grounding ['h', 'i'] [] 0).overlap_ratio = 0 ∧
    ((0 : ℚ) ≠ 1) := by
  refine ⟨?_, ?_, by norm_num⟩ <;>
    simp [HallucinationGuard.check_source_grounding]

/-- C3 amended: check_source_grounding reports grounded=True with
overlap_ratio 0.0 in both degenerate cases (empty source, and also empty
response), for every value of the other argument and every
min_overlap_ratio. -/
theorem C3_degenerate_grounding (other : Str) (min_overlap_ratio : ℚ) :
    HallucinationGuard.check_source_grounding [] other min_overlap_ratio
      = ⟨true, 0, []⟩ ∧
    HallucinationGuard.check_source_grounding other [] min_overlap_ratio
      = ⟨true, 0, []⟩ := by
  constructor <;> simp [HallucinationGuard.check_source_grounding]

/-- C9 counterexample: with english_tokens = 3, chinese_tokens = 1 the
stored saving_pct is the 2-decimal rounding 66.67, not the exact
tokens_saved/english_tokens*100 = 200/3 that the claim asserts. -/
theorem C9_rounding_counterexample :
    (token_savings_report List.length ['a', 'b', 'c'] ['a']).tokens_saved = 2 ∧
    (token_savings_report List.length ['a', 'b', 'c'] ['a']).saving_pct
      = 6667 / 100 ∧
    ((6667 / 100 : ℚ) ≠ (2 : ℚ) / 3 * 100) := by
  refine ⟨by decide, ?_, by norm_num⟩
  simp only [token_savings_report]
  norm_num [pyRoundTo, roundHalfEven]

/-- C9 amended: tokens_saved = english_tokens - chinese_tokens always;
saving_pct is tokens_saved/english_tokens*100 rounded to two decimals
(half-to-even) when english_tokens > 0 and 0.0 when english_tokens = 0;
in particular english_tokens=10, chinese_tokens=4 gives tokens_saved=6
and saving_pct=60.0. -/
theorem C9_savings_report (counter : Str → ℕ) (en_text zh_text : Str) :
    (token_savings_report counter en_text zh_text).tokens_saved
      = (counter en_text : ℤ) - (counter zh_text : ℤ) ∧
    ((token_savings_report counter en_text zh_text).english_tokens = 0 →
      (token_savings_report counter en_text zh_text).saving_pct = 0) ∧
    (0 < (token_savings_report counter en_text zh_text).english_tokens →
      (token_savings_report counter en_text zh_text).saving_pct
        = pyRoundTo
            (((token_savings_report counter en_text zh_text).tokens_saved : ℚ)
              / ((token_savings_report counter en_text zh_text).english_tokens : ℚ)
              * 100) 2) ∧
    (counter en_text = 10 → counter zh_text = 4 →
      (token_savings_report counter en_text zh_text).tokens_saved = 6 ∧
      (token_savings_report counter en_text zh_text).saving_pct = 60) := by
  refine ⟨rfl, ?_, ?_, ?_⟩
  · intro h0
    simp only [token_savings_report] at h0 ⊢
    rw [h0]
    norm_num [pyRoundTo, roundHalfEven]
  · intro hpos
    simp only [token_savings_report] at hpos ⊢
    rw [if_pos hpos]
  · intro h10 h4
    simp only [token_savings_report, h10, h4]
    norm_num [pyRoundTo, roundHalfEven]

/-- Witness for C9 at counts 10 and 4. -/
theorem C9_savings_report_witness :
    (token_savings_report (fun s => s.length)
      ['0', '1', '2', '3', '4', '5', '6', '7', '8', '9']
      ['a', 'b', 'c', 'd']).tokens_saved = 6 ∧
    (token_savings_report (fun s => s.length)
      ['0', '1', '2', '3', '4', '5', '6', '7', '8', '9']
      ['a', 'b', 'c', 'd']).saving_pct = 60 :=
  (C9_savings_report (fun s => s.length) _ _).2.2.2 rfl rfl

theorem expand_points_eq (α : Type) (cfg : SkeletonOfThought.Config)
    (llm : List Message → α) (content : α → Option Str)
    (system_prompt : Str) (pts : List Str) :
    SkeletonOfThought.expand_points cfg llm content system_prompt pts
      = (pts.map (fun pt =>
            (content (llm (SkeletonOfThought.expand_messages system_prompt pt))).getD []),
         pts.map (fun pt => llm (SkeletonOfThought.expand_messages system_prompt pt))) := by
  unfold SkeletonOfThought.expand_points SkeletonOfThought.expand_one
  rw [ite_self]
  simp [List.map_map, Function.comp]

theorem sot_complete_eq (α : Type) (cfg : SkeletonOfThought.Config)
    (llm : List Message → α) (content : α → Option Str)
    (system_prompt user_message : Str) :
    SkeletonOfThought.complete cfg llm content system_prompt user_message
      = { response := List.intercalate "\n\n".data
            ((if SkeletonOfThought.parse_skeleton
                ((content (llm (SkeletonOfThought.skeleton_messages system_prompt user_message))).getD []) = []
              then [pyStrip ((content (llm (SkeletonOfThought.skeleton_messages system_prompt user_message))).getD [])]
              else SkeletonOfThought.parse_skeleton
                ((content (llm (SkeletonOfThought.skeleton_messages system_prompt user_message))).getD [])).map
              (fun pt => (content (llm (SkeletonOfThought.expand_messages system_prompt pt))).getD []))
          skeleton :=
            if SkeletonOfThought.parse_skeleton
                ((content (llm (SkeletonOfThought.skeleton_messages system_prompt user_message))).getD []) = []
            then [pyStrip ((content (llm (SkeletonOfThought.skeleton_messages system_prompt user_message))).getD [])]
            else SkeletonOfThought.parse_skeleton
              ((content (llm (SkeletonOfThought.skeleton_messages system_prompt user_message))).getD [])
          expanded_points :=
            (if SkeletonOfThought.parse_skeleton
                ((content (llm (SkeletonOfThought.skeleton_messages system_prompt user_message))).getD []) = []
             then [pyStrip ((content (llm (SkeletonOfThought.skeleton_messages system_prompt user_message))).getD [])]
             else SkeletonOfThought.parse_skeleton
               ((content (llm (SkeletonOfThought.skeleton_messages system_prompt user_message))).getD [])).map
              (fun pt => (content (llm (SkeletonOfThought.expand_messages system_prompt pt))).getD [])
          raw_skeleton := llm (SkeletonOfThought.skeleton_messages system_prompt user_message)
          raw_expansions :=
            (if SkeletonOfThought.parse_skeleton
                ((content (llm (SkeletonOfThought.skeleton_messages system_prompt user_message))).getD []) = []
             then [pyStrip ((content (llm (SkeletonOfThought.skeleton_messages system_prompt user_message))).getD [])]
             else SkeletonOfThought.parse_skeleton
               ((content (llm (SkeletonOfThought.skeleton_messages system_prompt user_message))).getD [])).map
              (fun pt => llm (SkeletonOfThought.expand_messages system_prompt pt)) } := by
  simp only [SkeletonOfThought.complete, expand_points_eq]

/-- C5: SkeletonOfThought.complete returns expanded_points and
raw_expansions lists whose length equals the number N of parsed skeleton
points (exactly 1 when parsing produces none), with the ith expansion
produced from the ith skeleton point, identically for parallel and
sequential execution. -/
theorem C5_sot_expansion_alignment (α : Type) (cfg : SkeletonOfThought.Config)
    (llm : List Message → α) (content : α → Option Str)
    (system_prompt user_message : Str) :
    (SkeletonOfThought.complete cfg llm content system_prompt user_message).expanded_points
      = (SkeletonOfThought.complete cfg llm content system_prompt user_message).skeleton.map
          (fun pt => (content (llm (SkeletonOfThought.expand_messages system_prompt pt))).getD []) ∧
    (SkeletonOfThought.complete cfg llm content system_prompt user_message).raw_expansions
      = (SkeletonOfThought.complete cfg llm content system_prompt user_message).skeleton.map
          (fun pt => llm (SkeletonOfThought.expand_messages system_prompt pt)) ∧
    (SkeletonOfThought.complete cfg llm content system_prompt user_message).expanded_points.length
      = (SkeletonOfThought.complete cfg llm content system_prompt user_message).skeleton.length ∧
    (SkeletonOfThought.complete cfg llm content system_prompt user_message).raw_expansions.length
      = (SkeletonOfThought.complete cfg llm content system_prompt user_message).skeleton.length ∧
    (SkeletonOfThought.parse_skeleton
        ((content (llm (SkeletonOfThought.skeleton_messages system_prompt user_message))).getD []) ≠ [] →
      (SkeletonOfThought.complete cfg llm content system_prompt user_message).skeleton.length
        = (SkeletonOfThought.parse_skeleton
            ((content (llm (SkeletonOfThought.skeleton_messages system_prompt user_message))).getD [])).length) ∧
    (SkeletonOfThought.parse_skeleton
        ((content (llm (SkeletonOfThought.skeleton_messages system_prompt user_message))).getD []) = [] →
      (SkeletonOfThought.complete cfg llm content system_prompt user_message).skeleton.length = 1) ∧
    (∀ p₁ p₂ : Bool,
      SkeletonOfThought.complete { cfg with parallel := p₁ } llm content system_prompt user_message
        = SkeletonOfThought.complete { cfg with parallel := p₂ } llm content system_prompt user_message) := by
  rw [sot_complete_eq]
  refine ⟨rfl, rfl, by simp, by simp, ?_, ?_, ?_⟩
  · intro hne
    simp [if_neg hne]
  · intro he
    simp [if_pos he]
  · intro p₁ p₂
    rw [sot_complete_eq, sot_complete_eq]

/-- Witness for C5: a two-point skeleton yields two aligned expansions. -/
theorem C5_sot_expansion_alignment_witness :
    (SkeletonOfThought.complete
        ⟨"m".data, 0.2, true, none, none, none, []⟩
        (fun _ => "1. Alpha\n2. Beta".data) some "sys".data "question".data).skeleton.length
      = (SkeletonOfThought.parse_skeleton
          ((some ((fun (_ : List Message) => "1. Alpha\n2. Beta".data)
            (SkeletonOfThought.skeleton_messages "sys".data "question".data))).getD [])).length :=
  (C5_sot_expansion_alignment Str
      ⟨"m".data, 0.2, true, none, none, none, []⟩
      (fun _ => "1. Alpha\n2. Beta".data) some "sys".data "question".data).2.2.2.2.1
    (by decide)

theorem ssGo_no_boundary :
    ∀ (s : Str) (prev : Option Char), hasBoundaryAux prev s = false →
      Translator.ssGo false prev s = [s] := by
  intro s
  induction s with
  | nil => intro prev _; rfl
  | cons c cs ih =>
    intro prev h
    simp only [hasBoundaryAux, Bool.or_eq_false_iff, Bool.and_eq_false_iff] at h
    obtain ⟨h1, h2⟩ := h
    simp only [Translator.ssGo]
    rw [if_neg (by simp)]
    rw [if_neg (by
      intro hc
      rcases h1 with h1 | h1
      · exact absurd hc.1 (by simp [h1])
      · exact absurd hc.2 (by simp [h1]))]
    rw [ih (some c) h2]

theorem ssGo_start_head (c : Char) (cs : Str) :
    ∃ p ps, Translator.ssGo false none (c :: cs) = (c :: p) :: ps := by
  simp only [Translator.ssGo]
  rw [if_neg (by simp), if_neg (by simp [Translator.prevTerminal])]
  cases h : Translator.ssGo false (some c) cs with
  | nil => exact ⟨[], [], rfl⟩
  | cons p ps => exact ⟨p, ps, rfl⟩

theorem split_sentences_ne_nil (text : Str) (h : pyStrip text ≠ []) :
    Translator.split_sentences text ≠ [] := by
  unfold Translator.split_sentences
  cases hs : pyStrip text with
  | nil => exact absurd hs h
  | cons c cs =>
    obtain ⟨p, ps, hgo⟩ := ssGo_start_head c cs
    rw [hgo]
    have hmem : (c :: p) ∈ (c :: p) :: ps := List.mem_cons_self _ _
    have : (c :: p) ∈ ((c :: p) :: ps).filter (fun s => s ≠ []) :=
      List.mem_filter.mpr ⟨hmem, by simp⟩
    exact List.ne_nil_of_mem this

/-- C8: for every text that survives input validation, translation splits
the (protected) text into sentence units at terminal punctuation followed
by whitespace, treats a boundary-free text as one unit, sends the engine
exactly one call per unit (the trace equals the unit list), and joins the
translated units with a single space. -/
theorem C8_sentence_chunking (engine : Str → Str) (text : Str)
    (h : pyStrip text ≠ []) :
    Translator.split_sentences text ≠ [] ∧
    (Translator.translate_sentences engine text).2
      = Translator.split_sentences text ∧
    (Translator.translate_sentences engine text).1
      = List.intercalate [' ']
          ((Translator.split_sentences text).map engine) ∧
    (hasBoundaryAux none (pyStrip text) = false →
      Translator.split_sentences text = [pyStrip text]) := by
  have hne := split_sentences_ne_nil text h
  refine ⟨hne, ?_, ?_, ?_⟩
  · simp only [Translator.translate_sentences, if_neg hne]
  · simp only [Translator.translate_sentences, if_neg hne]
  · intro hb
    unfold Translator.split_sentences
    rw [ssGo_no_boundary _ none hb]
    simp [List.filter, h]

/-- Witness for C8 on a two-sentence text. -/
theorem C8_sentence_chunking_witness :
    Translator.split_sentences "One. Two".data ≠ [] ∧
    (Translator.translate_sentences (fun s => s) "One. Two".data).2
      = Translator.split_sentences "One. Two".data ∧
    (Translator.translate_sentences (fun s => s) "One. Two".data).1
      = List.intercalate [' ']
          ((Translator.split_sentences "One. Two".data).map (fun s => s)) ∧
    (hasBoundaryAux none (pyStrip "One. Two".data) = false →
      Translator.split_sentences "One. Two".data = [pyStrip "One. Two".data]) :=
  C8_sentence_chunking (fun s => s) "One. Two".data (by decide)

/-- C7: empty or whitespace-only inputs raise the input-validation
ValueError in english_to_chinese, chinese_to_english and complete, before
any external call is issued (the traces are empty). -/
theorem C7_validation_before_calls :
    (∀ (engine : Str → Str) (glossary extra : List (Str × Str)) (text : Str),
      pyStrip text = [] →
      Translator.english_to_chinese engine glossary text extra
        = ([], .error "Input text must not be empty.".data) ∧
      Translator.chinese_to_english engine glossary text extra
        = ([], .error "Input text must not be empty.".data)) ∧
    (∀ (cfg : ChinesePromptOptimizer.Config) (en_zh zh_en : Str → Str)
      (llm : List Message → Option Str) (counter : Str → ℕ)
      (system_prompt user_message : Str) (return_savings : Bool)
      (extra : List (Str × Str)) (ctx : List Str),
      pyStrip system_prompt = [] ∨ pyStrip user_message = [] →
      ∃ e, ChinesePromptOptimizer.complete cfg en_zh zh_en llm counter
        system_prompt user_message return_savings extra ctx
          = ([], .error e)) := by
  constructor
  · intro engine glossary extra text h
    constructor <;>
      simp [Translator.english_to_chinese, Translator.chinese_to_english, h]
  · intro cfg en_zh zh_en llm counter sys user rs extra ctx h
    rcases h with h | h
    · exact ⟨"system_prompt must not be empty.".data,
        by simp [ChinesePromptOptimizer.complete, h]⟩
    · by_cases hs : pyStrip sys = []
      · exact ⟨"system_prompt must not be empty.".data,
          by simp [ChinesePromptOptimizer.complete, hs]⟩
      · exact ⟨"user_message must not be empty.".data,
          by simp [ChinesePromptOptimizer.complete, hs, h]⟩

/-- Witness for C7 on whitespace-only inputs. -/
theorem C7_validation_before_calls_witness :
    (Translator.english_to_chinese (fun s => s) [] [' '] []
        = ([], .error "Input text must not be empty.".data) ∧
      Translator.chinese_to_english (fun s => s) [] [' '] []
        = ([], .error "Input text must not be empty.".data)) ∧
    ∃ e, ChinesePromptOptimizer.complete
        ⟨"m".data, true, [], 0.2, false, false, true, [], none, none, []⟩
        (fun s => s) (fun s => s) (fun _ => none) (fun _ => 0)
        [' '] "hi".data false [] [] = ([], .error e) :=
  ⟨C7_validation_before_calls.1 (fun s => s) [] [] [' '] (by decide),
   C7_validation_before_calls.2
     ⟨"m".data, true, [], 0.2, false, false, true, [], none, none, []⟩
     (fun s => s) (fun s => s) (fun _ => none) (fun _ => 0)
     [' '] "hi".data false [] [] (Or.inl (by decide))⟩

theorem grounding_default_grounded (s resp : Str) :
    (HallucinationGuard.check_source_grounding s resp).grounded = true ∧
    (HallucinationGuard.check_source_grounding s resp).warning = [] := by
  simp only [HallucinationGuard.check_source_grounding]
  by_cases h1 : s = [] ∨ resp = []
  · rw [if_pos h1]; exact ⟨rfl, rfl⟩
  · rw [if_neg h1]
    by_cases h2 : HallucinationGuard.sourceKeyTerms s = []
    · rw [if_pos h2]; exact ⟨rfl, rfl⟩
    · rw [if_neg h2]
      have hnn : ((0 : ℚ) ≤
          (((HallucinationGuard.sourceKeyTerms s).filter
              (fun w => containsSub (pyLower resp) w)).length : ℚ)
            / ((HallucinationGuard.sourceKeyTerms s).length : ℚ)) :=
        div_nonneg (Nat.cast_nonneg _) (Nat.cast_nonneg _)
      have hg := decide_eq_true hnn
      exact ⟨hg, by rw [if_pos hg]⟩

/-- C10 (implicit): complete invokes check_source_grounding without a
threshold, so min_overlap_ratio defaults to 0.0; the computed overlap is
never negative, so every grounding dict returned by complete has
grounded=True and an empty warning. -/
theorem C10_grounding_never_flags (cfg : ChinesePromptOptimizer.Config)
    (en_zh zh_en : Str → Str) (llm : List Message → Option Str)
    (counter : Str → ℕ) (system_prompt user_message : Str)
    (return_savings : Bool) (extra : List (Str × Str)) (ctx : List Str)
    (hguard : cfg.hallucination_guard = true) :
    (∀ s resp : Str,
      (HallucinationGuard.check_source_grounding s resp).grounded = true ∧
      (HallucinationGuard.check_source_grounding s resp).warning = []) ∧
    result_grounded_ok
      (ChinesePromptOptimizer.complete cfg en_zh zh_en llm counter
        system_prompt user_message return_savings extra ctx).2 := by
  refine ⟨grounding_default_grounded, ?_⟩
  by_cases hs : pyStrip system_prompt = []
  · simp [ChinesePromptOptimizer.complete, hs, result_grounded_ok]
  by_cases hu : pyStrip user_message = []
  · simp [ChinesePromptOptimizer.complete, hs, hu, result_grounded_ok]
  simp only [ChinesePromptOptimizer.complete, if_neg hs, if_neg hu]
  rcases he : Translator.english_to_chinese en_zh cfg.glossary system_prompt
      extra with ⟨calls₁, res₁⟩
  cases res₁ with
  | error e => simp [result_grounded_ok]
  | ok csp =>
    by_cases htr : cfg.translate_response
    · simp only [htr, if_true]
      rcases hc : Translator.chinese_to_english zh_en cfg.glossary
          ((llm (ChinesePromptOptimizer.build_messages cfg
            (HallucinationGuard.build_guarded_prompt csp true cfg.use_cot
              cfg.use_self_reflect)
            (if ctx ≠ [] then
              if HallucinationGuard.build_rag_context_block ctx ≠ [] then
                HallucinationGuard.build_rag_context_block ctx ++ "\n\n".data
                  ++ user_message
              else user_message
            else user_message))).getD []) extra with ⟨calls₂, res₂⟩
      cases res₂ with
      | error e => simp [result_grounded_ok]
      | ok resp =>
        simp only [result_grounded_ok, ChinesePromptOptimizer.mk_result, hguard,
          if_true]
        exact ⟨_, rfl, (grounding_default_grounded _ _).1,
          (grounding_default_grounded _ _).2⟩
    · simp only [htr, if_false, Bool.false_eq_true]
      simp only [result_grounded_ok, ChinesePromptOptimizer.mk_result, hguard,
        if_true]
      exact ⟨_, rfl, (grounding_default_grounded _ _).1,
        (grounding_default_grounded _ _).2⟩

/-- Witness for C10. -/
theorem C10_grounding_never_flags_witness :
    result_grounded_ok
      (ChinesePromptOptimizer.complete
        ⟨"m".data, false, [], 0.2, false, false, true, [], none, none, []⟩
        (fun s => s) (fun s => s) (fun _ => some "好".data) (fun _ => 0)
        "Be brief.".data "What is the capital of France?".data
        false [] []).2 :=
  (C10_grounding_never_flags
    ⟨"m".data, false, [], 0.2, false, false, true, [], none, none, []⟩
    (fun s => s) (fun s => s) (fun _ => some "好".data) (fun _ => 0)
    "Be brief.".data "What is the capital of France?".data
    false [] [] rfl).2

theorem english_to_chinese_ok (engine : Str → Str)
    (glossary extra : List (Str × Str)) (text : Str) (h : pyStrip text ≠ []) :
    Translator.english_to_chinese engine glossary text extra
      = ((Translator.translate_sentences engine
            (Translator.protect_terms text (dictMerge glossary extra)).1).2,
         .ok (Translator.restore_terms
            (Translator.translate_sentences engine
              (Translator.protect_terms text (dictMerge glossary extra)).1).1
            (Translator.protect_terms text (dictMerge glossary extra)).2
            (dictMerge glossary extra))) := by
  simp only [Translator.english_to_chinese, if_neg h]

theorem filter_completion_translate_en (l : List Str) :
    (l.map ChinesePromptOptimizer.ExtCall.translate_en_zh).filter
      isCompletionCall = [] := by
  induction l with
  | nil => rfl
  | cons a as ih => simp [isCompletionCall, ih]

theorem filter_completion_translate_zh (l : List Str) :
    (l.map ChinesePromptOptimizer.ExtCall.translate_zh_en).filter
      isCompletionCall = [] := by
  induction l with
  | nil => rfl
  | cons a as ih => simp [isCompletionCall, ih]

/-- C1 (code bug): for every configuration — including one carrying a
use_sot keyword, which lands in litellm_kwargs — and every valid input,
complete issues exactly one completion call, forwards the stored extra
kwargs (hence use_sot) verbatim to it at the enforced temperature, and
the result dict never carries a skeleton entry; no configuration selects
the Skeleton-of-Thought pipeline. -/
theorem C1_single_dispatch_no_skeleton (cfg : ChinesePromptOptimizer.Config)
    (en_zh zh_en : Str → Str) (llm : List Message → Option Str)
    (counter : Str → ℕ) (system_prompt user_message : Str)
    (return_savings : Bool) (extra : List (Str × Str)) (ctx : List Str)
    (hs : pyStrip system_prompt ≠ []) (hu : pyStrip user_message ≠ []) :
    ((ChinesePromptOptimizer.complete cfg en_zh zh_en llm counter
        system_prompt user_message return_savings extra ctx).1.filter
      isCompletionCall).length = 1 ∧
    (∀ m msgs t k b kw,
      ChinesePromptOptimizer.ExtCall.completion m msgs t k b kw ∈
        (ChinesePromptOptimizer.complete cfg en_zh zh_en llm counter
          system_prompt user_message return_savings extra ctx).1 →
      m = cfg.model ∧ t = cfg.temperature ∧ kw = cfg.litellm_kwargs) ∧
    skeleton_absent
      (ChinesePromptOptimizer.complete cfg en_zh zh_en llm counter
        system_prompt user_message return_savings extra ctx).2 := by
  simp only [ChinesePromptOptimizer.complete, if_neg hs, if_neg hu,
    english_to_chinese_ok _ _ _ _ hs]
  by_cases htr : cfg.translate_response
  · simp only [htr, if_true]
    rcases hc : Translator.chinese_to_english zh_en cfg.glossary _ extra
      with ⟨calls₂, res₂⟩
    cases res₂ with
    | error e =>
      refine ⟨?_, ?_, trivial⟩
      · simp [List.filter_append, filter_completion_translate_en,
          filter_completion_translate_zh, ChinesePromptOptimizer.call_litellm,
          isCompletionCall]
      · intro m msgs t k b kw hmem
        simp only [List.mem_append, List.mem_map] at hmem
        rcases hmem with (⟨a, _, ha⟩ | ha) | ⟨a, _, ha⟩
        · cases ha
        · simp only [List.mem_singleton] at ha
          rw [ChinesePromptOptimizer.call_litellm] at ha
          injection ha with h1 h2 h3 h4 h5 h6
          exact ⟨h1, h3, h6⟩
        · cases ha
    | ok resp =>
      refine ⟨?_, ?_, rfl⟩
      · simp [List.filter_append, filter_completion_translate_en,
          filter_completion_translate_zh, ChinesePromptOptimizer.call_litellm,
          isCompletionCall]
      · intro m msgs t k b kw hmem
        simp only [List.mem_append, List.mem_map] at hmem
        rcases hmem with (⟨a, _, ha⟩ | ha) | ⟨a, _, ha⟩
        · cases ha
        · simp only [List.mem_singleton] at ha
          rw [ChinesePromptOptimizer.call_litellm] at ha
          injection ha with h1 h2 h3 h4 h5 h6
          exact ⟨h1, h3, h6⟩
        · cases ha
  · simp only [htr, if_false, Bool.false_eq_true]
    refine ⟨?_, ?_, rfl⟩
    · simp [List.filter_append, filter_completion_translate_en,
        ChinesePromptOptimizer.call_litellm, isCompletionCall]
    · intro m msgs t k b kw hmem
      simp only [List.mem_append, List.mem_map] at hmem
      rcases hmem with ⟨a, _, ha⟩ | ha
      · cases ha
      · simp only [List.mem_singleton] at ha
        rw [ChinesePromptOptimizer.call_litellm] at ha
        injection ha with h1 h2 h3 h4 h5 h6
        exact ⟨h1, h3, h6⟩

/-- Witness for C1: a config constructed with use_sot=True in its extra
kwargs still makes exactly one completion call and returns no skeleton. -/
theorem C1_single_dispatch_no_skeleton_witness :
    ((ChinesePromptOptimizer.complete
        ⟨"m".data, false, [], 0.2, false, false, true, [], none, none,
          [("use_sot".data, "True".data)]⟩
        (fun s => s) (fun s => s) (fun _ => some "好".data) (fun _ => 0)
        "Be brief.".data "Hi there.".data false [] []).1.filter
      isCompletionCall).length = 1 ∧
    skeleton_absent
      (ChinesePromptOptimizer.complete
        ⟨"m".data, false, [], 0.2, false, false, true, [], none, none,
          [("use_sot".data, "True".data)]⟩
        (fun s => s) (fun s => s) (fun _ => some "好".data) (fun _ => 0)
        "Be brief.".data "Hi there.".data false [] []).2 :=
  ⟨(C1_single_dispatch_no_skeleton
      ⟨"m".data, false, [], 0.2, false, false, true, [], none, none,
        [("use_sot".data, "True".data)]⟩
      (fun s => s) (fun s => s) (fun _ => some "好".data) (fun _ => 0)
      "Be brief.".data "Hi there.".data false [] [] (by decide) (by decide)).1,
   (C1_single_dispatch_no_skeleton
      ⟨"m".data, false, [], 0.2, false, false, true, [], none, none,
        [("use_sot".data, "True".data)]⟩
      (fun s => s) (fun s => s) (fun _ => some "好".data) (fun _ => 0)
      "Be brief.".data "Hi there.".data false [] [] (by decide) (by decide)).2.2⟩

/-- C2 counterexample: the protect/restore round trip is not the identity.
(1) A glossary entry whose value differs from its key restores the value:
"ab" with {"ab": "c"} comes back as "c".  (2) restore_terms strips the
result: " a" with an empty glossary comes back as "a".  (3) A term that
matches inside a marker mangles it: "a" with {"a": "a", "PH_0": "PH_0"}
comes back as "". -/
theorem C2_roundtrip_counterexample :
    (Translator.restore_terms
        (Translator.protect_terms "ab".data [("ab".data, "c".data)]).1
        (Translator.protect_terms "ab".data [("ab".data, "c".data)]).2
        [("ab".data, "c".data)] = "c".data ∧
      "c".data ≠ "ab".data) ∧
    (Translator.restore_terms
        (Translator.protect_terms [' ', 'a'] []).1
        (Translator.protect_terms [' ', 'a'] []).2 [] = ['a'] ∧
      (['a'] : Str) ≠ [' ', 'a']) ∧
    (Translator.restore_terms
        (Translator.protect_terms ['a']
          [(['a'], ['a']), ("PH_0".data, "PH_0".data)]).1
        (Translator.protect_terms ['a']
          [(['a'], ['a']), ("PH_0".data, "PH_0".data)]).2
        [(['a'], ['a']), ("PH_0".data, "PH_0".data)] = [] ∧
      ([] : Str) ≠ ['a']) := by
  decide

/-- C4 counterexample: markers can be valid glossary substrings, and then a
later entry does alter an earlier placeholder: with text "a" and glossary
{"a": "a", "PH_0": "PH_0"}, the second substitution rewrites the inside of
the marker __PH_0__ inserted for the first, which no longer occurs in the
protected text even though it is recorded in the placeholder map. -/
theorem C4_double_substitution_counterexample :
    (Translator.protect_terms ['a']
        [(['a'], ['a']), ("PH_0".data, "PH_0".data)]).1
      = "____PH_1____".data ∧
    ("__PH_0__".data, ['a']) ∈
      (Translator.protect_terms ['a']
        [(['a'], ['a']), ("PH_0".data, "PH_0".data)]).2 ∧
    containsSub
      (Translator.protect_terms ['a']
        [(['a'], ['a']), ("PH_0".data, "PH_0".data)]).1
      "__PH_0__".data = false := by
  decide

theorem litTake_some_eq :
    ∀ {pat : Str} {cs rem : Chunks}, litTake pat cs = some rem →
      cs = pat.map Sum.inl ++ rem := by
  intro pat
  induction pat with
  | nil => intro cs rem h; simp [litTake] at h; simp [h]
  | cons p ps ih =>
    intro cs rem h
    cases cs with
    | nil => simp [litTake] at h
    | cons ch cs2 =>
      cases ch with
      | inl c =>
        simp only [litTake] at h
        by_cases hc : c = p
        · rw [if_pos hc] at h
          subst hc
          simpa using ih h
        · rw [if_neg hc] at h; cases h
      | inr j => simp [litTake] at h

theorem litTake_length {pat : Str} {cs rem : Chunks}
    (h : litTake pat cs = some rem) : rem.length + pat.length = cs.length := by
  have := litTake_some_eq h
  subst this
  simp [List.length_append]
  omega

theorem replaceAllCFuel_congr :
    ∀ f₁ f₂ (pat : Str) (k : ℕ) (cs : Chunks), cs.length ≤ f₁ →
      cs.length ≤ f₂ → replaceAllCFuel f₁ pat k cs = replaceAllCFuel f₂ pat k cs := by
  intro f₁
  induction f₁ with
  | zero =>
    intro f₂ pat k cs h₁ _
    have : cs = [] := List.length_eq_zero.mp (Nat.le_zero.mp h₁)
    subst this
    cases f₂ <;> rfl
  | succ g ih =>
    intro f₂ pat k cs h₁ h₂
    cases cs with
    | nil => cases f₂ <;> rfl
    | cons ch cs2 =>
      cases f₂ with
      | zero => simp at h₂
      | succ f =>
        have hg : cs2.length ≤ g := by simpa using h₁
        have hf : cs2.length ≤ f := by simpa using h₂
        simp only [replaceAllCFuel]
        by_cases hp : pat = []
        · rw [if_pos hp, if_pos hp, ih _ _ _ _ hg hf]
        · rw [if_neg hp, if_neg hp]
          cases hm : litTake pat (ch :: cs2) with
          | some rem =>
            have hl := litTake_length hm
            have hpl : pat.length ≠ 0 := by
              cases pat with
              | nil => exact absurd rfl hp
              | cons a as => simp
            have hrg : rem.length ≤ g := by
              simp only [List.length_cons] at hl
              omega
            have hrf : rem.length ≤ f := by
              simp only [List.length_cons] at hl
              omega
            dsimp only
            rw [ih _ _ _ _ hrg hrf]
          | none =>
            dsimp only
            rw [ih _ _ _ _ hg hf]

theorem replaceAllC_nil (pat : Str) (k : ℕ) : replaceAllC pat k [] = [] := rfl

theorem replaceAllC_cons (pat : Str) (k : ℕ) (ch : Chunk) (cs : Chunks) :
    replaceAllC pat k (ch :: cs) =
      if pat = [] then ch :: replaceAllC pat k cs
      else
        match litTake pat (ch :: cs) with
        | some rem => .inr k :: replaceAllC pat k rem
        | none => ch :: replaceAllC pat k cs := by
  show replaceAllCFuel (cs.length + 1) pat k (ch :: cs) = _
  simp only [replaceAllCFuel, replaceAllC]
  by_cases hp : pat = []
  · rw [if_pos hp, if_pos hp]
  · rw [if_neg hp, if_neg hp]
    cases hm : litTake pat (ch :: cs) with
    | some rem =>
      have hl := litTake_length hm
      have hpl : pat.length ≠ 0 := by
        cases pat with
        | nil => exact absurd rfl hp
        | cons a as => simp
      have : rem.length ≤ cs.length := by
        simp only [List.length_cons] at hl
        omega
      dsimp only
      rw [replaceAllCFuel_congr _ _ _ _ _ this le_rfl]
    | none => rfl

theorem render_nil : render [] = [] := rfl

theorem render_cons (ch : Chunk) (cs : Chunks) :
    render (ch :: cs) = renderChunk ch ++ render cs := by
  simp [render]

theorem render_append (a b : Chunks) : render (a ++ b) = render a ++ render b := by
  simp [render]

theorem render_map_inl (t : Str) : render (t.map Sum.inl) = t := by
  induction t with
  | nil => rfl
  | cons c cs ih => simp [render_cons, renderChunk] at ih ⊢; exact ih

theorem natDigits_all_digit : ∀ n, ∀ c ∈ natDigits n, c.isDigit = true := by
  intro n
  induction n using Nat.strong_induction_on with
  | _ n ih =>
    intro c hc
    rw [natDigits_eq] at hc
    by_cases hn : n < 10
    · rw [if_pos hn] at hc
      simp only [List.mem_singleton] at hc
      subst hc
      unfold digitChar Char.isDigit
      interval_cases n <;> decide
    · rw [if_neg hn] at hc
      rcases List.mem_append.mp hc with h | h
      · exact ih (n / 10) (Nat.div_lt_self (by omega) (by omega)) c h
      · simp only [List.mem_singleton] at h
        subst h
        unfold digitChar Char.isDigit
        have : n % 10 < 10 := Nat.mod_lt _ (by omega)
        interval_cases h : (n % 10) <;> decide

theorem natDigits_ne_nil (n : ℕ) : natDigits n ≠ [] := by
  rw [natDigits_eq]
  by_cases hn : n < 10
  · simp [hn]
  · simp [hn]

theorem digitsVal_append (a b : Str) :
    digitsVal (a ++ b) = b.foldl (fun x c => x * 10 + (c.toNat - 48)) (digitsVal a) := by
  simp [digitsVal, List.foldl_append]

theorem digitChar_toNat (d : ℕ) (h : d < 10) : (digitChar d).toNat = 48 + d := by
  unfold digitChar
  interval_cases d <;> decide

theorem digitsVal_natDigits : ∀ n, digitsVal (natDigits n) = n := by
  intro n
  induction n using Nat.strong_induction_on with
  | _ n ih =>
    rw [natDigits_eq]
    by_cases hn : n < 10
    · rw [if_pos hn]
      simp [digitsVal, digitChar_toNat n hn]
    · rw [if_neg hn]
      rw [digitsVal_append, ih (n / 10) (Nat.div_lt_self (by omega) (by omega))]
      simp [digitChar_toNat (n % 10) (Nat.mod_lt _ (by omega))]
      omega

theorem natDigits_injective {m n : ℕ} (h : natDigits m = natDigits n) : m = n := by
  have := digitsVal_natDigits m
  rw [h, digitsVal_natDigits] at this
  omega

theorem placeholder_eq (k : ℕ) :
    placeholder k = '_' :: '_' :: 'P' :: 'H' :: '_' :: (natDigits k ++ ['_', '_']) := by
  show "__PH_".data ++ natDigits k ++ "__".data = _
  rfl

theorem isPrefixOf_append_self (t w : Str) : t.isPrefixOf (t ++ w) = true := by
  induction t with
  | nil => simp [List.isPrefixOf]
  | cons c cs ih => simpa [List.isPrefixOf] using ih

theorem suffix_append_cases {u a b : Str} (h : u <:+ a ++ b) :
    u <:+ b ∨ ∃ u₁, u₁ <:+ a ∧ u₁ ≠ [] ∧ u = u₁ ++ b := by
  induction a with
  | nil => exact Or.inl (by simpa using h)
  | cons c a' ih =>
    rw [List.cons_append] at h
    rcases List.suffix_cons_iff.mp h with h | h
    · exact Or.inr ⟨c :: a', List.suffix_refl _, by simp, by simpa using h⟩
    · rcases ih h with h | ⟨u₁, hs, hne, he⟩
      · exact Or.inl h
      · exact Or.inr ⟨u₁, hs.trans (List.suffix_cons c a'), hne, he⟩

theorem underscore_head_fail {t : Str} (hund : '_' ∉ t) (hne : t ≠ [])
    (rest : Str) : t.isPrefixOf ('_' :: rest) = false := by
  cases t with
  | nil => exact absurd rfl hne
  | cons c ts =>
    have hc : c ≠ '_' := fun h => hund (h ▸ List.mem_cons_self c ts)
    simp [List.isPrefixOf, hc]

theorem second_underscore_fail {t : Str} (hund : '_' ∉ t) (hne : t ≠ [])
    (c : Char) (hsingle : t ≠ [c]) (rest : Str) :
    t.isPrefixOf (c :: '_' :: rest) = false := by
  cases t with
  | nil => exact absurd rfl hne
  | cons c0 ts =>
    cases ts with
    | nil =>
      have : c0 ≠ c := fun h => hsingle (by rw [h])
      simp [List.isPrefixOf, this]
    | cons c1 ts2 =>
      have h1 : c1 ≠ '_' := fun h =>
        hund (h ▸ List.mem_cons_of_mem c0 (List.mem_cons_self c1 ts2))
      simp [List.isPrefixOf, h1]

theorem third_underscore_fail {t : Str} (hund : '_' ∉ t) (hne : t ≠ [])
    (c1 c2 : Char) (h1 : t ≠ [c1]) (h2 : t ≠ [c1, c2]) (rest : Str) :
    t.isPrefixOf (c1 :: c2 :: '_' :: rest) = false := by
  cases t with
  | nil => exact absurd rfl hne
  | cons a ts =>
    cases ts with
    | nil =>
      have : a ≠ c1 := fun h => h1 (by rw [h])
      simp [List.isPrefixOf, this]
    | cons b ts2 =>
      cases ts2 with
      | nil =>
        by_cases ha : a = c1
        · have : b ≠ c2 := fun h => h2 (by rw [ha, h])
          simp [List.isPrefixOf, this]
        · simp [List.isPrefixOf, ha]
      | cons d ts3 =>
        have : d ≠ '_' := fun h =>
          hund (h ▸ List.mem_cons_of_mem a
            (List.mem_cons_of_mem b (List.mem_cons_self d ts3)))
        simp [List.isPrefixOf, this]

theorem nodigit_prefix_fail :
    ∀ (ds t w : Str), '_' ∉ t → (∃ c ∈ t, ¬ c.isDigit = true) →
      (∀ c ∈ ds, c.isDigit = true) → t.isPrefixOf (ds ++ '_' :: w) = false := by
  intro ds
  induction ds with
  | nil =>
    intro t w hund hex _
    have hne : t ≠ [] := by
      obtain ⟨c0, hc0, _⟩ := hex
      exact fun h => by simp [h] at hc0
    simpa using underscore_head_fail hund hne w
  | cons d ds' ih =>
    intro t w hund hex hdig
    cases t with
    | nil =>
      obtain ⟨c0, hc0, _⟩ := hex
      simp at hc0
    | cons c ts =>
      rw [List.cons_append]
      by_cases hc : c = d
      · subst hc
        have hcdig : c.isDigit = true := hdig c (List.mem_cons_self _ _)
        obtain ⟨c0, hc0, hc0nd⟩ := hex
        have hc0ts : c0 ∈ ts := by
          rcases List.mem_cons.mp hc0 with h | h
          · exact absurd (h ▸ hcdig) hc0nd
          · exact h
        have hts : ts.isPrefixOf (ds' ++ '_' :: w) = false :=
          ih ts w (fun h => hund (List.mem_cons_of_mem c h)) ⟨c0, hc0ts, hc0nd⟩
            (fun x hx => hdig x (List.mem_cons_of_mem _ hx))
        simp [List.isPrefixOf, hts]
      · simp [List.isPrefixOf, hc]

theorem term_nostart {t : Str} (ht : TermOK t) (k : ℕ) :
    ∀ u w, u <:+ placeholder k → u ≠ [] → t.isPrefixOf (u ++ w) = false := by
  obtain ⟨hne, hund, hP, hH, hPH, hex⟩ := ht
  intro u w hsuf hune
  rw [placeholder_eq] at hsuf
  rcases List.suffix_cons_iff.mp hsuf with he | hsuf2
  · rw [he, List.cons_append]
    exact underscore_head_fail hund hne _
  rcases List.suffix_cons_iff.mp hsuf2 with he | hsuf3
  · rw [he, List.cons_append]
    exact underscore_head_fail hund hne _
  rcases List.suffix_cons_iff.mp hsuf3 with he | hsuf4
  · rw [he, List.cons_append, List.cons_append, List.cons_append]
    exact third_underscore_fail hund hne 'P' 'H' hP hPH _
  rcases List.suffix_cons_iff.mp hsuf4 with he | hsuf5
  · rw [he, List.cons_append, List.cons_append]
    exact second_underscore_fail hund hne 'H' hH _
  rcases List.suffix_cons_iff.mp hsuf5 with he | hsuf6
  · rw [he, List.cons_append]
    exact underscore_head_fail hund hne _
  rcases suffix_append_cases hsuf6 with h7 | ⟨ds', hds, hdne, he⟩
  · rcases List.suffix_cons_iff.mp h7 with he | h8
    · rw [he, List.cons_append]
      exact underscore_head_fail hund hne _
    rcases List.suffix_cons_iff.mp h8 with he | h9
    · rw [he, List.cons_append]
      exact underscore_head_fail hund hne _
    · exact absurd (List.suffix_nil.mp h9) hune
  · subst he
    have hdig : ∀ c ∈ ds', c.isDigit = true := fun c hc =>
      natDigits_all_digit k c (hds.subset hc)
    have : ds' ++ ['_', '_'] ++ w = ds' ++ '_' :: '_' :: w := by simp
    rw [this]
    exact nodigit_prefix_fail ds' t ('_' :: w) hund hex hdig

theorem replaceAll_append_of_nostart :
    ∀ (p w pat repl : Str),
      (∀ u, u <:+ p → u ≠ [] → pat.isPrefixOf (u ++ w) = false) →
      replaceAll (p ++ w) pat repl = p ++ replaceAll w pat repl := by
  intro p
  induction p with
  | nil => intro w pat repl _; rfl
  | cons c p' ih =>
    intro w pat repl hno
    rw [List.cons_append, replaceAll_cons]
    have hfull : pat.isPrefixOf (c :: (p' ++ w)) = false := by
      simpa using hno (c :: p') (List.suffix_refl _) (by simp)
    rw [if_neg (fun hcontra => absurd hcontra.2 (by simp [hfull]))]
    rw [ih w pat repl (fun u hu hune => hno u (hu.trans (List.suffix_cons c p')) hune),
      List.cons_append]

theorem contains_append_of_nostart :
    ∀ (p w pat : Str),
      (∀ u, u <:+ p → u ≠ [] → pat.isPrefixOf (u ++ w) = false) →
      containsSub (p ++ w) pat = containsSub w pat := by
  intro p
  induction p with
  | nil => intro w pat _; rfl
  | cons c p' ih =>
    intro w pat hno
    rw [List.cons_append]
    have hfull : pat.isPrefixOf (c :: (p' ++ w)) = false := by
      simpa using hno (c :: p') (List.suffix_refl _) (by simp)
    show (pat.isPrefixOf (c :: (p' ++ w)) ||
      containsSub (p' ++ w) pat) = containsSub w pat
    rw [hfull, Bool.false_or]
    exact ih w pat (fun u hu hune => hno u (hu.trans (List.suffix_cons c p')) hune)

theorem contains_of_isPrefixOf {s pat : Str} (h : pat.isPrefixOf s = true) :
    containsSub s pat = true := by
  cases s with
  | nil => show (pat.isPrefixOf [] || false) = true; simp [h]
  | cons c cs =>
    show (pat.isPrefixOf (c :: cs) || containsSub cs pat) = true
    simp [h]

theorem contains_append_right (a : Str) {w pat : Str}
    (h : containsSub w pat = true) : containsSub (a ++ w) pat = true := by
  induction a with
  | nil => simpa using h
  | cons c a' ih =>
    rw [List.cons_append]
    show (pat.isPrefixOf (c :: (a' ++ w)) || containsSub (a' ++ w) pat) = true
    simp [ih]

theorem ChWF_tail {ch : Chunk} {cs : Chunks} (h : ChWF (ch :: cs)) : ChWF cs :=
  fun c hc => h c (List.mem_cons_of_mem _ hc)

theorem ChWF_append_right {a b : Chunks} (h : ChWF (a ++ b)) : ChWF b :=
  fun c hc => h c (List.mem_append_right _ hc)

theorem litTake_prefix_iff :
    ∀ (t : Str) (cs : Chunks), '_' ∉ t →
      (t.isPrefixOf (render cs) = true ↔ ∃ rem, litTake t cs = some rem) := by
  intro t
  induction t with
  | nil => intro cs _; simp [List.isPrefixOf, litTake]
  | cons a t' ih =>
    intro cs hund
    have hundt : '_' ∉ t' := fun hm => hund (List.mem_cons_of_mem a hm)
    have ha : a ≠ '_' := fun h2 => hund (h2 ▸ List.mem_cons_self a t')
    cases cs with
    | nil =>
      constructor
      · intro h; simp [render, List.isPrefixOf] at h
      · intro h; obtain ⟨rem, hrem⟩ := h; simp [litTake] at hrem
    | cons ch cs2 =>
      cases ch with
      | inl c =>
        have hr : render (Sum.inl c :: cs2) = c :: render cs2 := by
          simp [render_cons, renderChunk]
        rw [hr]
        by_cases hac : a = c
        · subst hac
          constructor
          · intro h
            simp only [List.isPrefixOf, beq_self_eq_true, Bool.true_and] at h
            obtain ⟨rem, hrem⟩ := (ih cs2 hundt).mp h
            refine ⟨rem, ?_⟩
            simp only [litTake]
            simpa using hrem
          · intro h
            obtain ⟨rem, hrem⟩ := h
            simp only [litTake] at hrem
            simp only [if_true] at hrem
            have := (ih cs2 hundt).mpr ⟨rem, hrem⟩
            simp [List.isPrefixOf, this]
        · constructor
          · intro h; simp [List.isPrefixOf, hac] at h
          · intro h
            obtain ⟨rem, hrem⟩ := h
            simp only [litTake] at hrem
            rw [if_neg (fun h2 => hac h2.symm)] at hrem
            cases hrem
      | inr j =>
        have hr : render (Sum.inr j :: cs2) = placeholder j ++ render cs2 := by
          simp [render_cons, renderChunk]
        rw [hr, placeholder_eq]
        constructor
        · intro h
          rw [List.cons_append] at h
          simp [List.isPrefixOf, ha] at h
        · intro h
          obtain ⟨rem, hrem⟩ := h
          simp [litTake] at hrem

theorem litTake_render {t : Str} {cs rem : Chunks}
    (h : litTake t cs = some rem) : render cs = t ++ render rem := by
  rw [litTake_some_eq h, render_append, render_map_inl]

theorem replaceAll_self_prefix {t : Str} (htne : t ≠ []) (w r : Str) :
    replaceAll (t ++ w) t r = r ++ replaceAll w t r := by
  cases t with
  | nil => exact absurd rfl htne
  | cons a t' =>
    rw [List.cons_append, replaceAll_cons]
    rw [if_pos ⟨by simp, by simpa using isPrefixOf_append_self (a :: t') w⟩]
    have : (a :: t').length - 1 = t'.length := by simp
    rw [this, List.drop_left]

theorem protect_step (t : Str) (ht : TermOK t) (k : ℕ) :
    ∀ (n : ℕ) (cs : Chunks), cs.length ≤ n → ChWF cs →
      replaceAll (render cs) t (placeholder k) = render (replaceAllC t k cs) := by
  intro n
  induction n with
  | zero =>
    intro cs hlen _
    have : cs = [] := List.length_eq_zero.mp (Nat.le_zero.mp hlen)
    subst this
    rfl
  | succ m ih =>
    intro cs hlen hwf
    cases cs with
    | nil => rfl
    | cons ch cs2 =>
      rw [replaceAllC_cons, if_neg ht.1]
      cases hm : litTake t (ch :: cs2) with
      | some rem =>
        rw [litTake_render hm, replaceAll_self_prefix ht.1]
        have hrl : rem.length ≤ m := by
          have := litTake_length hm
          have htl : t.length ≠ 0 := fun h =>
            ht.1 (List.length_eq_zero.mp h)
          simp only [List.length_cons] at this hlen
          omega
        have hwfr : ChWF rem := by
          have := litTake_some_eq hm
          exact ChWF_append_right (this ▸ hwf)
        rw [ih rem hrl hwfr]
        simp [render_cons, renderChunk]
      | none =>
        cases ch with
        | inl c =>
          have hr : render (Sum.inl c :: cs2) = c :: render cs2 := by
            simp [render_cons, renderChunk]
          rw [hr, replaceAll_cons]
          have hpre : t.isPrefixOf (c :: render cs2) = false := by
            rw [← hr]
            by_contra hcon
            have : t.isPrefixOf (render (Sum.inl c :: cs2)) = true := by
              cases hb : t.isPrefixOf (render (Sum.inl c :: cs2))
              · exact absurd (hr ▸ hb) hcon
              · rfl
            obtain ⟨rem, hrem⟩ := (litTake_prefix_iff t _ ht.2.1).mp this
            rw [hm] at hrem
            cases hrem
          rw [if_neg (fun hcontra => absurd hcontra.2 (by simp [hpre]))]
          have hcl : cs2.length ≤ m := by simpa using hlen
          rw [ih cs2 hcl (ChWF_tail hwf)]
          simp [render_cons, renderChunk]
        | inr j =>
          have hr : render (Sum.inr j :: cs2) = placeholder j ++ render cs2 := by
            simp [render_cons, renderChunk]
          rw [hr, replaceAll_append_of_nostart _ _ _ _
            (fun u hu hune => term_nostart ht j u (render cs2) hu hune)]
          have hcl : cs2.length ≤ m := by simpa using hlen
          rw [ih cs2 hcl (ChWF_tail hwf)]
          simp [render_cons, renderChunk]

theorem contains_mark_insert (t : Str) (ht : TermOK t) (k : ℕ) :
    ∀ (n : ℕ) (cs : Chunks), cs.length ≤ n → ChWF cs →
      containsSub (render cs) t = true → Sum.inr k ∈ replaceAllC t k cs := by
  intro n
  induction n with
  | zero =>
    intro cs hlen _ hcont
    have : cs = [] := List.length_eq_zero.mp (Nat.le_zero.mp hlen)
    subst this
    obtain ⟨a, t', ht'⟩ : ∃ a t', t = a :: t' := by
      cases t with
      | nil => exact absurd rfl ht.1
      | cons a t' => exact ⟨a, t', rfl⟩
    subst ht'
    simp [containsSub, render, List.isPrefixOf] at hcont
  | succ m ih =>
    intro cs hlen hwf hcont
    cases cs with
    | nil =>
      obtain ⟨a, t', ht'⟩ : ∃ a t', t = a :: t' := by
        cases t with
        | nil => exact absurd rfl ht.1
        | cons a t' => exact ⟨a, t', rfl⟩
      subst ht'
      simp [containsSub, render, List.isPrefixOf] at hcont
    | cons ch cs2 =>
      rw [replaceAllC_cons, if_neg ht.1]
      cases hm : litTake t (ch :: cs2) with
      | some rem => exact List.mem_cons_self _ _
      | none =>
        have hcl : cs2.length ≤ m := by simpa using hlen
        cases ch with
        | inl c =>
          have hr : render (Sum.inl c :: cs2) = c :: render cs2 := by
            simp [render_cons, renderChunk]
          have hpre : t.isPrefixOf (render (Sum.inl c :: cs2)) = false := by
            cases hb : t.isPrefixOf (render (Sum.inl c :: cs2))
            · rfl
            · obtain ⟨rem, hrem⟩ := (litTake_prefix_iff t _ ht.2.1).mp hb
              rw [hm] at hrem
              cases hrem
          rw [hr] at hcont hpre
          have hcont2 : containsSub (render cs2) t = true := by
            have : (t.isPrefixOf (c :: render cs2) ||
                containsSub (render cs2) t) = true := hcont
            rw [hpre, Bool.false_or] at this
            exact this
          exact List.mem_cons_of_mem _ (ih cs2 hcl (ChWF_tail hwf) hcont2)
        | inr j =>
          have hr : render (Sum.inr j :: cs2) = placeholder j ++ render cs2 := by
            simp [render_cons, renderChunk]
          rw [hr, contains_append_of_nostart _ _ _
            (fun u hu hune => term_nostart ht j u (render cs2) hu hune)] at hcont
          exact List.mem_cons_of_mem _ (ih cs2 hcl (ChWF_tail hwf) hcont)

theorem mem_mark_contains (k : ℕ) :
    ∀ (cs : Chunks), Sum.inr k ∈ cs →
      containsSub (render cs) (placeholder k) = true := by
  intro cs
  induction cs with
  | nil => intro h; simp at h
  | cons ch cs2 ih =>
    intro h
    rcases List.mem_cons.mp h with h | h
    · rw [← h, render_cons]
      exact contains_of_isPrefixOf
        (by simpa [renderChunk] using
          isPrefixOf_append_self (placeholder k) (render cs2))
    · rw [render_cons]
      exact contains_append_right _ (ih h)

theorem isPrefixOf_cons_ne {a x : Char} (h : a ≠ x) (t' rest : Str) :
    (a :: t').isPrefixOf (x :: rest) = false := by
  simp [List.isPrefixOf, h]

theorem digdig :
    ∀ (ds₁ ds₂ : Str), ds₁ ≠ ds₂ → (∀ c ∈ ds₁, c.isDigit = true) →
      (∀ c ∈ ds₂, c.isDigit = true) → ∀ x y,
      (ds₁ ++ '_' :: x).isPrefixOf (ds₂ ++ '_' :: y) = false := by
  intro ds₁
  induction ds₁ with
  | nil =>
    intro ds₂ hne _ h2 x y
    cases ds₂ with
    | nil => exact absurd rfl hne
    | cons d ds₂' =>
      have hd : d ≠ '_' := by
        have := h2 d (List.mem_cons_self _ _)
        intro he
        rw [he] at this
        cases this
      simpa using isPrefixOf_cons_ne (Ne.symm hd) x (ds₂' ++ '_' :: y)
  | cons a ds₁' ih =>
    intro ds₂ hne h1 h2 x y
    have ha : a ≠ '_' := by
      have := h1 a (List.mem_cons_self _ _)
      intro he
      rw [he] at this
      cases this
    cases ds₂ with
    | nil => simpa using isPrefixOf_cons_ne ha (ds₁' ++ '_' :: x) y
    | cons b ds₂' =>
      by_cases hab : a = b
      · subst hab
        have hrest : (ds₁' ++ '_' :: x).isPrefixOf (ds₂' ++ '_' :: y) = false :=
          ih ds₂' (fun h => hne (by rw [h]))
            (fun c hc => h1 c (List.mem_cons_of_mem _ hc))
            (fun c hc => h2 c (List.mem_cons_of_mem _ hc)) x y
        simpa [List.isPrefixOf] using hrest
      · simpa using isPrefixOf_cons_ne hab (ds₁' ++ '_' :: x) (ds₂' ++ '_' :: y)

theorem placeholder_ne_nil (k : ℕ) : placeholder k ≠ [] := by
  rw [placeholder_eq]
  simp

theorem ph_prefix_ph_false {i j : ℕ} (hij : i ≠ j) (w : Str) :
    (placeholder i).isPrefixOf (placeholder j ++ w) = false := by
  rw [placeholder_eq i, placeholder_eq j]
  simp only [List.cons_append, List.isPrefixOf, beq_self_eq_true, Bool.true_and]
  have hne : natDigits i ≠ natDigits j := fun h => hij (natDigits_injective h)
  have := digdig (natDigits i) (natDigits j) hne
    (natDigits_all_digit i) (natDigits_all_digit j) ['_'] ('_' :: w)
  simpa using this

theorem render_no_underscore_P (z : Str) :
    ∀ (cs : Chunks), ChWF cs → ('_' :: 'P' :: z).isPrefixOf (render cs) = false := by
  intro cs hwf
  cases cs with
  | nil => simp [render, List.isPrefixOf]
  | cons ch cs2 =>
    cases ch with
    | inl c =>
      have hc : c ≠ '_' := hwf c (List.mem_cons_self _ _)
      have hr : render (Sum.inl c :: cs2) = c :: render cs2 := by
        simp [render_cons, renderChunk]
      rw [hr]
      exact isPrefixOf_cons_ne (Ne.symm hc) _ _
    | inr q =>
      have hr : render (Sum.inr q :: cs2) = placeholder q ++ render cs2 := by
        simp [render_cons, renderChunk]
      rw [hr, placeholder_eq]
      simp [List.isPrefixOf]

theorem render_no_PHdigit (d : Char) (hd : d.isDigit = true) (z : Str) :
    ∀ (cs : Chunks), ChWF cs →
      ('P' :: 'H' :: '_' :: d :: z).isPrefixOf (render cs) = false := by
  have hdu : d ≠ '_' := by
    intro he
    rw [he] at hd
    cases hd
  intro cs hwf
  cases cs with
  | nil => simp [render, List.isPrefixOf]
  | cons ch cs2 =>
    cases ch with
    | inr q =>
      have hr : render (Sum.inr q :: cs2) = placeholder q ++ render cs2 := by
        simp [render_cons, renderChunk]
      rw [hr, placeholder_eq]
      simp [List.isPrefixOf]
    | inl c =>
      have hr : render (Sum.inl c :: cs2) = c :: render cs2 := by
        simp [render_cons, renderChunk]
      rw [hr]
      by_cases hc : c = 'P'
      · subst hc
        simp only [List.isPrefixOf, beq_self_eq_true, Bool.true_and]
        cases cs2 with
        | nil => simp [render, List.isPrefixOf]
        | cons ch2 cs3 =>
          cases ch2 with
          | inr q =>
            have hr2 : render (Sum.inr q :: cs3) = placeholder q ++ render cs3 := by
              simp [render_cons, renderChunk]
            rw [hr2, placeholder_eq]
            simp [List.isPrefixOf]
          | inl c2 =>
            have hr2 : render (Sum.inl c2 :: cs3) = c2 :: render cs3 := by
              simp [render_cons, renderChunk]
            rw [hr2]
            by_cases hc2 : c2 = 'H'
            · subst hc2
              simp only [List.isPrefixOf, beq_self_eq_true, Bool.true_and]
              cases cs3 with
              | nil => simp [render, List.isPrefixOf]
              | cons ch3 cs4 =>
                cases ch3 with
                | inl c3 =>
                  have hc3 : c3 ≠ '_' :=
                    hwf c3 (List.mem_cons_of_mem _
                      (List.mem_cons_of_mem _ (List.mem_cons_self _ _)))
                  have hr3 : render (Sum.inl c3 :: cs4) = c3 :: render cs4 := by
                    simp [render_cons, renderChunk]
                  rw [hr3]
                  exact isPrefixOf_cons_ne (Ne.symm hc3) _ _
                | inr q =>
                  have hr3 : render (Sum.inr q :: cs4)
                      = placeholder q ++ render cs4 := by
                    simp [render_cons, renderChunk]
                  rw [hr3, placeholder_eq]
                  have hbeq : (d == '_') = false := by simpa using hdu
                  simp [List.isPrefixOf, hbeq]
            · exact isPrefixOf_cons_ne (fun h => hc2 h.symm) _ _
      · exact isPrefixOf_cons_ne (fun h => hc h.symm) _ _

theorem ph_midfail {i j : ℕ} (rest : Chunks) (hwf : ChWF rest) :
    ∀ u, u <:+ placeholder j → u ≠ [] → (u = placeholder j → i ≠ j) →
      (placeholder i).isPrefixOf (u ++ render rest) = false := by
  intro u hsuf hune himp
  rw [placeholder_eq j] at hsuf
  rcases List.suffix_cons_iff.mp hsuf with he | hsuf2
  · have hu : u = placeholder j := by rw [placeholder_eq j]; exact he
    rw [hu]
    exact ph_prefix_ph_false (himp hu) (render rest)
  rcases List.suffix_cons_iff.mp hsuf2 with he | hsuf3
  · rw [he, placeholder_eq i]
    simp [List.isPrefixOf]
  rcases List.suffix_cons_iff.mp hsuf3 with he | hsuf4
  · rw [he, placeholder_eq i]
    simp [List.isPrefixOf]
  rcases List.suffix_cons_iff.mp hsuf4 with he | hsuf5
  · rw [he, placeholder_eq i]
    simp [List.isPrefixOf]
  rcases List.suffix_cons_iff.mp hsuf5 with he | hsuf6
  · rw [he, placeholder_eq i]
    obtain ⟨d, ds, hds⟩ : ∃ d ds, natDigits j = d :: ds := by
      cases hnd : natDigits j with
      | nil => exact absurd hnd (natDigits_ne_nil j)
      | cons d ds => exact ⟨d, ds, rfl⟩
    rw [hds]
    have hd : d.isDigit = true :=
      natDigits_all_digit j d (by rw [hds]; exact List.mem_cons_self _ _)
    have hdu : ('_' == d) = false := by
      have hne2 : d ≠ '_' := by
        intro he2
        rw [he2] at hd
        cases hd
      simpa using Ne.symm hne2
    simp [List.isPrefixOf, hdu]
  rcases suffix_append_cases hsuf6 with h7 | ⟨ds', hds, hdne, he⟩
  · rcases List.suffix_cons_iff.mp h7 with he | h8
    · rw [he, placeholder_eq i]
      simp only [List.cons_append, List.isPrefixOf, beq_self_eq_true,
        Bool.true_and, List.nil_append]
      obtain ⟨d, ds, hds2⟩ : ∃ d ds, natDigits i = d :: ds := by
        cases hnd : natDigits i with
        | nil => exact absurd hnd (natDigits_ne_nil i)
        | cons d ds => exact ⟨d, ds, rfl⟩
      have hd : d.isDigit = true :=
        natDigits_all_digit i d (by rw [hds2]; exact List.mem_cons_self _ _)
      rw [hds2]
      simpa using render_no_PHdigit d hd (ds ++ ['_', '_']) rest hwf
    rcases List.suffix_cons_iff.mp h8 with he | h9
    · rw [he, placeholder_eq i]
      simp only [List.cons_append, List.isPrefixOf, beq_self_eq_true,
        Bool.true_and, List.nil_append]
      exact render_no_underscore_P _ rest hwf
    · exact absurd (List.suffix_nil.mp h9) hune
  · rw [he, placeholder_eq i]
    obtain ⟨d, ds2, hds2⟩ : ∃ d ds2, ds' = d :: ds2 := by
      cases ds' with
      | nil => exact absurd rfl hdne
      | cons d ds2 => exact ⟨d, ds2, rfl⟩
    have hd : d.isDigit = true :=
      natDigits_all_digit j d (hds.subset (by rw [hds2]; exact List.mem_cons_self _ _))
    have hdu : ('_' : Char) ≠ d := by
      intro he2
      rw [← he2] at hd
      cases hd
    rw [hds2]
    simpa using isPrefixOf_cons_ne hdu
      ('_' :: 'P' :: 'H' :: '_' :: (natDigits i ++ ['_', '_']))
      (ds2 ++ ['_', '_'] ++ render rest)

theorem substMark_cons (k : ℕ) (r : Str) (ch : Chunk) (cs : Chunks) :
    substMark k r (ch :: cs) =
      (match ch with
       | .inr j => if j = k then r.map Sum.inl else [.inr j]
       | .inl c => [.inl c]) ++ substMark k r cs := rfl

theorem restore_step (i : ℕ) (repl : Str) (hrepl : '_' ∉ repl) :
    ∀ (n : ℕ) (cs : Chunks), cs.length ≤ n → ChWF cs →
      replaceAll (render cs) (placeholder i) repl
        = render (substMark i repl cs) := by
  intro n
  induction n with
  | zero =>
    intro cs hlen _
    have : cs = [] := List.length_eq_zero.mp (Nat.le_zero.mp hlen)
    subst this
    rfl
  | succ m ih =>
    intro cs hlen hwf
    cases cs with
    | nil => rfl
    | cons ch cs2 =>
      have hcl : cs2.length ≤ m := by simpa using hlen
      cases ch with
      | inl c =>
        have hr : render (Sum.inl c :: cs2) = c :: render cs2 := by
          simp [render_cons, renderChunk]
        have hc : c ≠ '_' := hwf c (List.mem_cons_self _ _)
        rw [hr, replaceAll_cons]
        have hpre : (placeholder i).isPrefixOf (c :: render cs2) = false := by
          rw [placeholder_eq]
          exact isPrefixOf_cons_ne (Ne.symm hc) _ _
        rw [if_neg (fun hcontra => absurd hcontra.2 (by simp [hpre]))]
        rw [ih cs2 hcl (ChWF_tail hwf)]
        rw [substMark_cons]
        simp [render_cons, renderChunk, render_append]
      | inr j =>
        by_cases hij : j = i
        · subst hij
          have hr : render (Sum.inr j :: cs2) = placeholder j ++ render cs2 := by
            simp [render_cons, renderChunk]
          rw [hr, replaceAll_self_prefix (placeholder_ne_nil j)]
          rw [ih cs2 hcl (ChWF_tail hwf)]
          rw [substMark_cons]
          simp [render_append, render_map_inl]
        · have hr : render (Sum.inr j :: cs2) = placeholder j ++ render cs2 := by
            simp [render_cons, renderChunk]
          rw [hr, replaceAll_append_of_nostart _ _ _ _
            (fun u hu hune =>
              ph_midfail cs2 (ChWF_tail hwf) u hu hune
                (fun _ => fun hcon => hij hcon.symm))]
          rw [ih cs2 hcl (ChWF_tail hwf)]
          rw [substMark_cons]
          simp only [if_neg hij]
          simp [render_cons, renderChunk, render_append]

theorem mem_replaceAllC_of_mem {j : ℕ} (t : Str) (k : ℕ) :
    ∀ (n : ℕ) (cs : Chunks), cs.length ≤ n → Sum.inr j ∈ cs →
      Sum.inr j ∈ replaceAllC t k cs := by
  intro n
  induction n with
  | zero =>
    intro cs hlen hmem
    have : cs = [] := List.length_eq_zero.mp (Nat.le_zero.mp hlen)
    subst this
    simp at hmem
  | succ m ih =>
    intro cs hlen hmem
    cases cs with
    | nil => simp at hmem
    | cons ch cs2 =>
      have hcl : cs2.length ≤ m := by simpa using hlen
      rw [replaceAllC_cons]
      by_cases hp : t = []
      · rw [if_pos hp]
        rcases List.mem_cons.mp hmem with h | h
        · exact h ▸ List.mem_cons_self _ _
        · exact List.mem_cons_of_mem _ (ih cs2 hcl h)
      · rw [if_neg hp]
        cases hm : litTake t (ch :: cs2) with
        | some rem =>
          have hsplit := litTake_some_eq hm
          have hrl : rem.length ≤ m := by
            have hL := litTake_length hm
            have ht0 : t.length ≠ 0 := fun h => hp (List.length_eq_zero.mp h)
            simp only [List.length_cons] at hlen hL
            omega
          have hmr : Sum.inr j ∈ rem := by
            rw [hsplit] at hmem
            rcases List.mem_append.mp hmem with h | h
            · obtain ⟨c, _, hc⟩ := List.mem_map.mp h
              cases hc
            · exact h
          exact List.mem_cons_of_mem _ (ih rem hrl hmr)
        | none =>
          rcases List.mem_cons.mp hmem with h | h
          · exact h ▸ List.mem_cons_self _ _
          · exact List.mem_cons_of_mem _ (ih cs2 hcl h)

theorem mem_replaceAllC_cases {j : ℕ} (t : Str) (k : ℕ) :
    ∀ (n : ℕ) (cs : Chunks), cs.length ≤ n →
      Sum.inr j ∈ replaceAllC t k cs → j = k ∨ Sum.inr j ∈ cs := by
  intro n
  induction n with
  | zero =>
    intro cs hlen hmem
    have : cs = [] := List.length_eq_zero.mp (Nat.le_zero.mp hlen)
    subst this
    simp [replaceAllC_nil] at hmem
  | succ m ih =>
    intro cs hlen hmem
    cases cs with
    | nil => simp [replaceAllC_nil] at hmem
    | cons ch cs2 =>
      have hcl : cs2.length ≤ m := by simpa using hlen
      rw [replaceAllC_cons] at hmem
      by_cases hp : t = []
      · rw [if_pos hp] at hmem
        rcases List.mem_cons.mp hmem with h | h
        · exact Or.inr (h ▸ List.mem_cons_self _ _)
        · rcases ih cs2 hcl h with h2 | h2
          · exact Or.inl h2
          · exact Or.inr (List.mem_cons_of_mem _ h2)
      · rw [if_neg hp] at hmem
        cases hm : litTake t (ch :: cs2) with
        | some rem =>
          rw [hm] at hmem
          have hsplit := litTake_some_eq hm
          have hrl : rem.length ≤ m := by
            have hL := litTake_length hm
            have ht0 : t.length ≠ 0 := fun h => hp (List.length_eq_zero.mp h)
            simp only [List.length_cons] at hlen hL
            omega
          rcases List.mem_cons.mp hmem with h | h
          · injection h with h2
            exact Or.inl h2
          · rcases ih rem hrl h with h2 | h2
            · exact Or.inl h2
            · exact Or.inr (by rw [hsplit]; exact List.mem_append_right _ h2)
        | none =>
          rw [hm] at hmem
          rcases List.mem_cons.mp hmem with h | h
          · exact Or.inr (h ▸ List.mem_cons_self _ _)
          · rcases ih cs2 hcl h with h2 | h2
            · exact Or.inl h2
            · exact Or.inr (List.mem_cons_of_mem _ h2)

theorem substMark_not_mem {k : ℕ} {r : Str} :
    ∀ cs : Chunks, Sum.inr k ∉ cs → substMark k r cs = cs := by
  intro cs
  induction cs with
  | nil => intro _; rfl
  | cons ch cs2 ih =>
    intro hnot
    rw [substMark_cons, ih (fun h => hnot (List.mem_cons_of_mem _ h))]
    cases ch with
    | inl c => rfl
    | inr j =>
      have hj : j ≠ k := fun h => hnot (h ▸ List.mem_cons_self _ _)
      simp [hj]

theorem substMark_append (k : ℕ) (r : Str) (a b : Chunks) :
    substMark k r (a ++ b) = substMark k r a ++ substMark k r b := by
  induction a with
  | nil => rfl
  | cons ch a2 ih => rw [List.cons_append, substMark_cons, substMark_cons, ih,
      List.append_assoc]

theorem substMark_map_inl (k : ℕ) (r t : Str) :
    substMark k r (t.map Sum.inl) = t.map Sum.inl := by
  apply substMark_not_mem
  intro h
  obtain ⟨c, _, hc⟩ := List.mem_map.mp h
  cases hc

theorem substMark_replaceAllC_inv (t : Str) (htne : t ≠ []) (k : ℕ) :
    ∀ (n : ℕ) (cs : Chunks), cs.length ≤ n → Sum.inr k ∉ cs →
      substMark k t (replaceAllC t k cs) = cs := by
  intro n
  induction n with
  | zero =>
    intro cs hlen _
    have : cs = [] := List.length_eq_zero.mp (Nat.le_zero.mp hlen)
    subst this
    rfl
  | succ m ih =>
    intro cs hlen hnot
    cases cs with
    | nil => rfl
    | cons ch cs2 =>
      have hcl : cs2.length ≤ m := by simpa using hlen
      rw [replaceAllC_cons, if_neg htne]
      cases hm : litTake t (ch :: cs2) with
      | some rem =>
        have hsplit := litTake_some_eq hm
        have hrl : rem.length ≤ m := by
          have hL := litTake_length hm
          have ht0 : t.length ≠ 0 := fun h => htne (List.length_eq_zero.mp h)
          simp only [List.length_cons] at hlen hL
          omega
        have hnr : Sum.inr k ∉ rem := fun h =>
          hnot (by rw [hsplit]; exact List.mem_append_right _ h)
        rw [substMark_cons, ih rem hrl hnr]
        simp only [if_pos rfl, if_true]
        rw [hsplit]
      | none =>
        rw [substMark_cons, ih cs2 hcl (fun h => hnot (List.mem_cons_of_mem _ h))]
        cases ch with
        | inl c => rfl
        | inr j =>
          have hj : j ≠ k := fun h => hnot (h ▸ List.mem_cons_self _ _)
          simp [hj]

theorem substMark_singleton (k : ℕ) (r : Str) (q : ℕ) :
    substMark k r [Sum.inr q] = if q = k then r.map Sum.inl else [Sum.inr q] := by
  rw [substMark_cons]
  by_cases h : q = k <;> simp [h, substMark]

theorem substMark_comm {i j : ℕ} (hij : i ≠ j) (s t : Str) :
    ∀ cs : Chunks, substMark i s (substMark j t cs)
      = substMark j t (substMark i s cs) := by
  intro cs
  induction cs with
  | nil => rfl
  | cons ch cs2 ih =>
    rw [substMark_cons j t ch cs2, substMark_cons i s ch cs2, substMark_append,
      substMark_append, ih]
    congr 1
    cases ch with
    | inl c => rfl
    | inr q =>
      dsimp only
      by_cases hqj : q = j
      · have hqi : ¬ q = i := fun h => hij (h.symm.trans hqj)
        rw [if_pos hqj, if_neg hqi, substMark_map_inl, substMark_singleton,
          if_pos hqj]
      · by_cases hqi : q = i
        · rw [if_neg hqj, if_pos hqi, substMark_singleton, if_pos hqi,
            substMark_map_inl]
        · rw [if_neg hqj, if_neg hqi, substMark_singleton, if_neg hqi,
            substMark_singleton, if_neg hqj]

theorem substFold_mark_comm :
    ∀ (phs : List (ℕ × Str)) (i : ℕ) (r : Str) (cs : Chunks),
      (∀ p ∈ phs, p.1 ≠ i) →
      substFold phs (substMark i r cs) = substMark i r (substFold phs cs) := by
  intro phs
  induction phs with
  | nil => intro i r cs _; rfl
  | cons p rest ih =>
    intro i r cs hne
    have hp : p.1 ≠ i := hne p (List.mem_cons_self _ _)
    show substFold rest (substMark p.1 p.2 (substMark i r cs))
      = substMark i r (substFold rest (substMark p.1 p.2 cs))
    rw [substMark_comm hp p.2 r cs]
    exact ih i r _ (fun q hq => hne q (List.mem_cons_of_mem _ hq))

theorem marksOf_mem_iff {j : ℕ} {cs : Chunks} :
    j ∈ marksOf cs ↔ Sum.inr j ∈ cs := by
  unfold marksOf
  rw [List.mem_filterMap]
  constructor
  · rintro ⟨ch, hch, he⟩
    cases ch with
    | inl c => simp at he
    | inr k =>
      simp at he
      exact he ▸ hch
  · intro h
    exact ⟨Sum.inr j, h, rfl⟩

theorem mem_inl_replaceAllC {c : Char} (t : Str) (k : ℕ) :
    ∀ (n : ℕ) (cs : Chunks), cs.length ≤ n →
      Sum.inl c ∈ replaceAllC t k cs → Sum.inl c ∈ cs := by
  intro n
  induction n with
  | zero =>
    intro cs hlen hmem
    have : cs = [] := List.length_eq_zero.mp (Nat.le_zero.mp hlen)
    subst this
    simp [replaceAllC_nil] at hmem
  | succ m ih =>
    intro cs hlen hmem
    cases cs with
    | nil => simp [replaceAllC_nil] at hmem
    | cons ch cs2 =>
      have hcl : cs2.length ≤ m := by simpa using hlen
      rw [replaceAllC_cons] at hmem
      by_cases hp : t = []
      · rw [if_pos hp] at hmem
        rcases List.mem_cons.mp hmem with h | h
        · exact h ▸ List.mem_cons_self _ _
        · exact List.mem_cons_of_mem _ (ih cs2 hcl h)
      · rw [if_neg hp] at hmem
        cases hm : litTake t (ch :: cs2) with
        | some rem =>
          rw [hm] at hmem
          have hsplit := litTake_some_eq hm
          have hrl : rem.length ≤ m := by
            have hL := litTake_length hm
            have ht0 : t.length ≠ 0 := fun h => hp (List.length_eq_zero.mp h)
            simp only [List.length_cons] at hlen hL
            omega
          rcases List.mem_cons.mp hmem with h | h
          · cases h
          · exact hsplit ▸ List.mem_append_right _ (ih rem hrl h)
        | none =>
          rw [hm] at hmem
          rcases List.mem_cons.mp hmem with h | h
          · exact h ▸ List.mem_cons_self _ _
          · exact List.mem_cons_of_mem _ (ih cs2 hcl h)

theorem replaceAllC_WF {t : Str} {k : ℕ} {cs : Chunks} (h : ChWF cs) :
    ChWF (replaceAllC t k cs) := by
  intro c hc
  exact h c (mem_inl_replaceAllC t k cs.length cs le_rfl hc)

theorem protect_goC_indices :
    ∀ (gl : List (Str × Str)) (cs : Chunks) (idx : ℕ),
      ∀ p ∈ (protect_goC cs gl idx).2, idx ≤ p.1 := by
  intro gl
  induction gl with
  | nil => intro cs idx p hp; simp [protect_goC] at hp
  | cons q rest ih =>
    intro cs idx p hp
    obtain ⟨term, repl⟩ := q
    simp only [protect_goC] at hp
    by_cases h1 : term = []
    · rw [if_pos h1] at hp
      exact le_trans (Nat.le_succ idx) (ih cs (idx + 1) p hp)
    · rw [if_neg h1] at hp
      by_cases h2 : containsSub (render cs) term = true
      · rw [if_pos h2] at hp
        rcases List.mem_cons.mp hp with h | h
        · simp [h]
        · exact le_trans (Nat.le_succ idx) (ih _ (idx + 1) p h)
      · rw [if_neg h2] at hp
        exact le_trans (Nat.le_succ idx) (ih cs (idx + 1) p hp)

theorem protect_goC_WF :
    ∀ (gl : List (Str × Str)) (cs : Chunks) (idx : ℕ), ChWF cs →
      ChWF (protect_goC cs gl idx).1 := by
  intro gl
  induction gl with
  | nil => intro cs idx h; exact h
  | cons q rest ih =>
    intro cs idx h
    obtain ⟨term, repl⟩ := q
    simp only [protect_goC]
    by_cases h1 : term = []
    · rw [if_pos h1]; exact ih cs (idx + 1) h
    · rw [if_neg h1]
      by_cases h2 : containsSub (render cs) term = true
      · rw [if_pos h2]
        exact ih _ (idx + 1) (replaceAllC_WF h)
      · rw [if_neg h2]; exact ih cs (idx + 1) h

theorem protect_goC_records :
    ∀ (gl : List (Str × Str)) (cs : Chunks) (idx : ℕ),
      ∀ p ∈ (protect_goC cs gl idx).2, ∃ q ∈ gl, q.1 ≠ [] ∧ p.2 = q.2 := by
  intro gl
  induction gl with
  | nil => intro cs idx p hp; simp [protect_goC] at hp
  | cons q rest ih =>
    intro cs idx p hp
    obtain ⟨term, repl⟩ := q
    simp only [protect_goC] at hp
    by_cases h1 : term = []
    · rw [if_pos h1] at hp
      obtain ⟨r, hr, hrr⟩ := ih cs (idx + 1) p hp
      exact ⟨r, List.mem_cons_of_mem _ hr, hrr⟩
    · rw [if_neg h1] at hp
      by_cases h2 : containsSub (render cs) term = true
      · rw [if_pos h2] at hp
        rcases List.mem_cons.mp hp with h | h
        · exact ⟨(term, repl), List.mem_cons_self _ _, h1, by rw [h]⟩
        · obtain ⟨r, hr, hrr⟩ := ih _ (idx + 1) p h
          exact ⟨r, List.mem_cons_of_mem _ hr, hrr⟩
      · rw [if_neg h2] at hp
        obtain ⟨r, hr, hrr⟩ := ih cs (idx + 1) p hp
        exact ⟨r, List.mem_cons_of_mem _ hr, hrr⟩

theorem protect_goC_inv :
    ∀ (gl : List (Str × Str)) (cs : Chunks) (idx : ℕ),
      (∀ p ∈ gl, p.2 = p.1) → (∀ p ∈ gl, p.1 = [] ∨ TermOK p.1) →
      (∀ j ∈ marksOf cs, j < idx) →
      substFold (protect_goC cs gl idx).2 (protect_goC cs gl idx).1 = cs := by
  intro gl
  induction gl with
  | nil => intro cs idx _ _ _; rfl
  | cons q rest ih =>
    intro cs idx hid hok hmk
    obtain ⟨term, repl⟩ := q
    have hid' : ∀ p ∈ rest, p.2 = p.1 :=
      fun p hp => hid p (List.mem_cons_of_mem _ hp)
    have hok' : ∀ p ∈ rest, p.1 = [] ∨ TermOK p.1 :=
      fun p hp => hok p (List.mem_cons_of_mem _ hp)
    simp only [protect_goC]
    by_cases h1 : term = []
    · rw [if_pos h1]
      exact ih cs (idx + 1) hid' hok' (fun j hj => Nat.lt_succ_of_lt (hmk j hj))
    · rw [if_neg h1]
      by_cases h2 : containsSub (render cs) term = true
      · rw [if_pos h2]
        have hrepl : repl = term := hid (term, repl) (List.mem_cons_self _ _)
        have hmk' : ∀ j ∈ marksOf (replaceAllC term idx cs), j < idx + 1 := by
          intro j hj
          rcases mem_replaceAllC_cases term idx cs.length cs le_rfl
            (marksOf_mem_iff.mp hj) with h | h
          · omega
          · exact Nat.lt_succ_of_lt (hmk j (marksOf_mem_iff.mpr h))
        have hinner := ih (replaceAllC term idx cs) (idx + 1) hid' hok' hmk'
        have hne : ∀ p ∈ (protect_goC (replaceAllC term idx cs) rest (idx + 1)).2,
            p.1 ≠ idx := by
          intro p hp h
          have := protect_goC_indices rest (replaceAllC term idx cs) (idx + 1) p hp
          omega
        show substFold (protect_goC (replaceAllC term idx cs) rest (idx + 1)).2
            (substMark idx repl
              (protect_goC (replaceAllC term idx cs) rest (idx + 1)).1) = cs
        rw [substFold_mark_comm _ idx repl _ hne, hinner, hrepl]
        exact substMark_replaceAllC_inv term h1 idx cs.length cs le_rfl
          (fun h => absurd (hmk idx (marksOf_mem_iff.mpr h)) (lt_irrefl idx))
      · rw [if_neg h2]
        exact ih cs (idx + 1) hid' hok' (fun j hj => Nat.lt_succ_of_lt (hmk j hj))

theorem marks_preserved :
    ∀ (gl : List (Str × Str)) (cs : Chunks) (idx k : ℕ),
      Sum.inr k ∈ cs → Sum.inr k ∈ (protect_goC cs gl idx).1 := by
  intro gl
  induction gl with
  | nil => intro cs idx k h; exact h
  | cons q rest ih =>
    intro cs idx k h
    obtain ⟨term, repl⟩ := q
    simp only [protect_goC]
    by_cases h1 : term = []
    · rw [if_pos h1]; exact ih cs (idx + 1) k h
    · rw [if_neg h1]
      by_cases h2 : containsSub (render cs) term = true
      · rw [if_pos h2]
        exact ih _ (idx + 1) k (mem_replaceAllC_of_mem term idx cs.length cs le_rfl h)
      · rw [if_neg h2]; exact ih cs (idx + 1) k h

theorem protect_goC_mark_present :
    ∀ (gl : List (Str × Str)) (cs : Chunks) (idx : ℕ),
      (∀ p ∈ gl, p.1 = [] ∨ TermOK p.1) → ChWF cs →
      ∀ p ∈ (protect_goC cs gl idx).2,
        Sum.inr p.1 ∈ (protect_goC cs gl idx).1 := by
  intro gl
  induction gl with
  | nil => intro cs idx _ _ p hp; simp [protect_goC] at hp
  | cons q rest ih =>
    intro cs idx hok hwf p hp
    obtain ⟨term, repl⟩ := q
    have hok' : ∀ r ∈ rest, r.1 = [] ∨ TermOK r.1 :=
      fun r hr => hok r (List.mem_cons_of_mem _ hr)
    simp only [protect_goC] at hp ⊢
    by_cases h1 : term = []
    · rw [if_pos h1] at hp ⊢
      exact ih cs (idx + 1) hok' hwf p hp
    · rw [if_neg h1] at hp ⊢
      by_cases h2 : containsSub (render cs) term = true
      · rw [if_pos h2] at hp ⊢
        have hterm : TermOK term := (hok (term, repl) (List.mem_cons_self _ _)).resolve_left h1
        rcases List.mem_cons.mp hp with h | h
        · rw [h]
          exact marks_preserved rest (replaceAllC term idx cs) (idx + 1) idx
            (contains_mark_insert term hterm idx cs.length cs le_rfl hwf h2)
        · exact ih _ (idx + 1) hok' (replaceAllC_WF hwf) p h
      · rw [if_neg h2] at hp ⊢
        exact ih cs (idx + 1) hok' hwf p hp

theorem pgo_comm :
    ∀ (gl : List (Str × Str)) (cs : Chunks) (idx : ℕ), ChWF cs →
      (∀ p ∈ gl, p.1 = [] ∨ TermOK p.1) →
      Translator.protect_go (render cs) gl idx =
        (render (protect_goC cs gl idx).1,
         (protect_goC cs gl idx).2.map (fun p => (placeholder p.1, p.2))) := by
  intro gl
  induction gl with
  | nil => intro cs idx _ _; rfl
  | cons q rest ih =>
    intro cs idx hwf hok
    obtain ⟨term, repl⟩ := q
    have hok' : ∀ p ∈ rest, p.1 = [] ∨ TermOK p.1 :=
      fun p hp => hok p (List.mem_cons_of_mem _ hp)
    simp only [Translator.protect_go, protect_goC]
    by_cases h1 : term = []
    · rw [if_pos h1, if_pos h1]
      exact ih cs (idx + 1) hwf hok'
    · rw [if_neg h1, if_neg h1]
      by_cases h2 : containsSub (render cs) term = true
      · rw [if_pos h2, if_pos h2]
        have hterm : TermOK term := (hok (term, repl) (List.mem_cons_self _ _)).resolve_left h1
        rw [protect_step term hterm idx cs.length cs le_rfl hwf,
          ih (replaceAllC term idx cs) (idx + 1) (replaceAllC_WF hwf) hok']
        exact rfl
      · rw [if_neg h2, if_neg h2]
        exact ih cs (idx + 1) hwf hok'

theorem substMark_WF {k : ℕ} {r : Str} (hr : '_' ∉ r) :
    ∀ {cs : Chunks}, ChWF cs → ChWF (substMark k r cs) := by
  intro cs h c hc
  obtain ⟨ch, hch, hmem⟩ := List.mem_flatMap.mp hc
  cases ch with
  | inl d =>
    simp at hmem
    exact hmem ▸ h d hch
  | inr j =>
    by_cases hj : j = k
    · simp only [hj, if_pos rfl] at hmem
      obtain ⟨d, hd, hde⟩ := List.mem_map.mp hmem
      have : d = c := by injection hde
      exact fun he => hr (by rw [← he, ← this]; exact hd)
    · simp [hj] at hmem

theorem restore_fold_render :
    ∀ (phs : List (ℕ × Str)) (cs : Chunks), ChWF cs →
      (∀ p ∈ phs, '_' ∉ p.2) →
      (phs.map (fun p => (placeholder p.1, p.2))).foldl
          (fun t p => replaceAll t p.1 p.2) (render cs)
        = render (substFold phs cs) := by
  intro phs
  induction phs with
  | nil => intro cs _ _; rfl
  | cons p rest ih =>
    intro cs hwf hund
    have hp : '_' ∉ p.2 := hund p (List.mem_cons_self _ _)
    rw [List.map_cons, List.foldl_cons]
    dsimp only
    rw [restore_step p.1 p.2 hp cs.length cs le_rfl hwf]
    exact ih (substMark p.1 p.2 cs) (substMark_WF hp hwf)
      (fun q hq => hund q (List.mem_cons_of_mem _ hq))

theorem matchPH_head_ne {c : Char} (cs : Str) (hc : c ≠ '_') :
    matchPH (c :: cs) = none := by
  have h5 : "__PH_".data = '_' :: "_PH_".data := rfl
  unfold matchPH
  rw [h5]
  simp [dropExact, hc]

theorem stripPHFuel_no_underscore :
    ∀ (n : ℕ) (s : Str), '_' ∉ s → stripPHFuel n s = s := by
  intro n
  induction n with
  | zero => intro s _; cases s <;> rfl
  | succ m ih =>
    intro s hs
    cases s with
    | nil => rfl
    | cons c cs =>
      have hc : c ≠ '_' := fun h => hs (List.mem_cons.mpr (Or.inl h.symm))
      show (match matchPH (c :: cs) with
            | some rest => stripPHFuel m rest
            | none => c :: stripPHFuel m cs) = c :: cs
      rw [matchPH_head_ne cs hc]
      dsimp only
      rw [ih cs (fun h => hs (List.mem_cons_of_mem _ h))]

theorem stripPH_no_underscore {s : Str} (hs : '_' ∉ s) : stripPH s = s :=
  stripPHFuel_no_underscore s.length s hs

/-- C2 (amended): the protect/restore round-trip is the identity on the
well-behaved inputs the placeholder scheme is designed for: a glossary whose
values equal their terms (the identity glossary the round-trip property
presupposes) and whose non-empty terms contain no underscore, are not a piece
of "PH", and are not all digits; and an input text that contains no
underscore and is strip-invariant.  Under those conditions
_restore_terms(_protect_terms(text)) = text exactly; the unrestricted claim
is refuted by C2_roundtrip_counterexample. -/
theorem C2_protect_restore_roundtrip (text : Str) (glossary : List (Str × Str))
    (hid : ∀ p ∈ glossary, p.2 = p.1)
    (hok : ∀ p ∈ glossary, p.1 = [] ∨ TermOK p.1)
    (hund : '_' ∉ text)
    (hstrip : pyStrip text = text) :
    Translator.restore_terms (Translator.protect_terms text glossary).1
      (Translator.protect_terms text glossary).2 glossary = text := by
  unfold Translator.protect_terms
  by_cases hg : glossary = []
  · rw [if_pos hg]
    show pyStrip (stripPH text) = text
    rw [stripPH_no_underscore hund, hstrip]
  · rw [if_neg hg]
    have hwf : ChWF (text.map Sum.inl) := by
      intro c hc he
      obtain ⟨d, hd, hde⟩ := List.mem_map.mp hc
      have hdc : d = c := by injection hde
      rw [hdc, he] at hd
      exact hund hd
    have hcomm := pgo_comm glossary (text.map Sum.inl) 0 hwf hok
    rw [render_map_inl] at hcomm
    rw [hcomm]
    unfold Translator.restore_terms
    dsimp only
    have hvals : ∀ p ∈ (protect_goC (text.map Sum.inl) glossary 0).2,
        '_' ∉ p.2 := by
      intro p hp
      obtain ⟨q, hq, hqne, hpv⟩ :=
        protect_goC_records glossary (text.map Sum.inl) 0 p hp
      have hqok : TermOK q.1 := (hok q hq).resolve_left hqne
      rw [hpv, hid q hq]
      exact hqok.2.1
    have hmk0 : ∀ j ∈ marksOf (text.map Sum.inl), j < 0 := by
      intro j hj
      rw [marksOf_mem_iff] at hj
      obtain ⟨d, _, hd⟩ := List.mem_map.mp hj
      cases hd
    rw [restore_fold_render (protect_goC (text.map Sum.inl) glossary 0).2
        (protect_goC (text.map Sum.inl) glossary 0).1
        (protect_goC_WF glossary (text.map Sum.inl) 0 hwf) hvals,
      protect_goC_inv glossary (text.map Sum.inl) 0 hid hok hmk0,
      render_map_inl, stripPH_no_underscore hund, hstrip]

theorem C2_protect_restore_roundtrip_witness :
    Translator.restore_terms
        (Translator.protect_terms "use HIPAA rules".data
          [("HIPAA".data, "HIPAA".data)]).1
        (Translator.protect_terms "use HIPAA rules".data
          [("HIPAA".data, "HIPAA".data)]).2
        [("HIPAA".data, "HIPAA".data)]
      = "use HIPAA rules".data :=
  C2_protect_restore_roundtrip "use HIPAA rules".data
    [("HIPAA".data, "HIPAA".data)]
    (by decide) (by decide) (by decide) (by decide)

/-- C4 (amended): for glossaries whose non-empty terms cannot match inside a
marker (no underscore, not a piece of "PH", not all digits) and
underscore-free input text, processing later glossary entries never destroys
a placeholder inserted for an earlier entry: every placeholder recorded by
_protect_terms still occurs verbatim in the final protected text.  The
unrestricted claim is refuted by C4_double_substitution_counterexample. -/
theorem C4_placeholders_survive (text : Str) (glossary : List (Str × Str))
    (hok : ∀ p ∈ glossary, p.1 = [] ∨ TermOK p.1)
    (hund : '_' ∉ text) :
    ∀ p ∈ (Translator.protect_terms text glossary).2,
      containsSub (Translator.protect_terms text glossary).1 p.1 = true := by
  unfold Translator.protect_terms
  by_cases hg : glossary = []
  · rw [if_pos hg]
    intro p hp
    simp at hp
  · rw [if_neg hg]
    have hwf : ChWF (text.map Sum.inl) := by
      intro c hc he
      obtain ⟨d, hd, hde⟩ := List.mem_map.mp hc
      have hdc : d = c := by injection hde
      rw [hdc, he] at hd
      exact hund hd
    have hcomm := pgo_comm glossary (text.map Sum.inl) 0 hwf hok
    rw [render_map_inl] at hcomm
    rw [hcomm]
    intro p hp
    dsimp only at hp ⊢
    obtain ⟨q, hq, hpq⟩ := List.mem_map.mp hp
    rw [← hpq]
    exact mem_mark_contains q.1 _
      (protect_goC_mark_present glossary (text.map Sum.inl) 0 hok hwf q hq)

theorem C4_placeholders_survive_witness :
    containsSub
        (Translator.protect_terms "use HIPAA now".data
          [("HIPAA".data, "X".data)]).1
        (placeholder 0) = true :=
  C4_placeholders_survive "use HIPAA now".data [("HIPAA".data, "X".data)]
    (by decide) (by decide) (placeholder 0, "X".data) (by decide)
